import Mathlib

/-!
Shallow embedding of the Columnar Analytics Engine encoding layer
(`src/encoding.cpp`) and predicate pushdown (`include/execution.h`).

Machine integers are modelled by their unsigned bit patterns as `Nat`,
with wrapping made explicit via `% 2 ^ w`.  A signed `int32`/`int64`
value is represented by its two's-complement pattern; `toSigned`
recovers the mathematical integer.  Byte buffers are `List Nat` whose
elements are byte values (< 256 whenever produced by an encoder).
Fallible decoders return `Except DecodeError`; a read past the end of
the buffer (undefined behaviour in the C++) is modelled by the distinct
error `outOfBoundsRead`.
-/

namespace Columnar

/-- Error outcomes of the decoders.  `truncated` and `overflow` are the
`std::runtime_error`s thrown by the bounded varint decoders,
`invalidDictIndex` the one thrown by `DictionaryEncoder::decode`;
`outOfBoundsRead` marks an unchecked read past the end of the buffer
(undefined behaviour in the C++ source). -/
inductive DecodeError where
  | truncated
  | overflow
  | invalidDictIndex
  | outOfBoundsRead
deriving DecidableEq, Repr

/-- Two's-complement interpretation of a `w`-bit pattern. -/
def toSigned (w u : Nat) : Int :=
  if u < 2 ^ (w - 1) then (u : Int) else (u : Int) - 2 ^ w

/-- The emit loop shared by `VarintCodec::encodeUInt32` and
`VarintCodec::encodeInt64` (their loop bodies are textually identical):
7 payload bits per byte, little-endian, continuation bit `0x80` on all
bytes except the last.  `value & 0x7F` is `value % 0x80` and
`value >>= 7` is `value / 0x80`; or-ing `0x80` onto a 7-bit payload is
adding `0x80`. -/
def varintBytesAux : Nat → Nat → List Nat
  | 0, value => [value]
  | fuel + 1, value =>
    if 0x80 ≤ value then (value % 0x80 + 0x80) :: varintBytesAux fuel (value / 0x80)
    else [value]

def varintBytes (value : Nat) : List Nat :=
  varintBytesAux value value

theorem varintBytesAux_small {fuel value : Nat} (h : value < 0x80) :
    varintBytesAux fuel value = [value] := by
  cases fuel with
  | zero => rfl
  | succ k => simp [varintBytesAux, show ¬ 0x80 ≤ value by omega]

theorem varintBytesAux_congr :
    ∀ value fuel1 fuel2 : Nat, value ≤ fuel1 → value ≤ fuel2 →
      varintBytesAux fuel1 value = varintBytesAux fuel2 value := by
  intro value
  induction value using Nat.strong_induction_on with
  | _ value ih =>
    intro fuel1 fuel2 h1 h2
    rcases Nat.lt_or_ge value 0x80 with hlt | hge
    · rw [varintBytesAux_small hlt, varintBytesAux_small hlt]
    · obtain ⟨f1, rfl⟩ : ∃ f, fuel1 = f + 1 := ⟨fuel1 - 1, by omega⟩
      obtain ⟨f2, rfl⟩ : ∃ f, fuel2 = f + 1 := ⟨fuel2 - 1, by omega⟩
      have hdlt : value / 0x80 < value :=
        Nat.div_lt_self (by omega) (by omega)
      simp only [varintBytesAux, if_pos hge]
      rw [ih (value / 0x80) hdlt f1 f2 (by omega) (by omega)]

/-- The defining recursion of the emit loop: `value` itself is always
enough fuel. -/
theorem varintBytes_eq (value : Nat) :
    varintBytes value =
      if 0x80 ≤ value then (value % 0x80 + 0x80) :: varintBytes (value / 0x80)
      else [value] := by
  unfold varintBytes
  rcases Nat.lt_or_ge value 0x80 with hlt | hge
  · rw [varintBytesAux_small hlt, if_neg (by omega)]
  · obtain ⟨m, rfl⟩ : ∃ m, value = m + 1 := ⟨value - 1, by omega⟩
    have hdlt : (m + 1) / 0x80 < m + 1 :=
      Nat.div_lt_self (by omega) (by omega)
    simp only [varintBytesAux, if_pos hge]
    rw [varintBytesAux_congr ((m + 1) / 0x80) m ((m + 1) / 0x80) (by omega) (by omega)]

/-- Zigzag encoding `(value << 1) ^ (value >> (w-1))` computed on the
`w`-bit pattern `u` in `w`-bit unsigned arithmetic: the arithmetic right
shift of a `w`-bit signed value by `w - 1` is all-ones exactly when the
sign bit is set. -/
def zigzagEncode (w u : Nat) : Nat :=
  (2 * u % 2 ^ w) ^^^ (if u < 2 ^ (w - 1) then 0 else 2 ^ w - 1)

/-- Zigzag decoding `(encoded >> 1) ^ -(encoded & 1)` in `w`-bit
unsigned arithmetic: `-(encoded & 1)` is all-ones exactly when
`encoded` is odd. -/
def zigzagDecode (w e : Nat) : Nat :=
  (e / 2) ^^^ (if e % 2 = 1 then 2 ^ w - 1 else 0)

namespace VarintCodec

/-- `VarintCodec::encodeUInt32`. -/
def encodeUInt32 (value : Nat) : List Nat :=
  varintBytes value

/-- `VarintCodec::encodeInt32`: zigzag then the unsigned emit loop. -/
def encodeInt32 (u : Nat) : List Nat :=
  varintBytes (zigzagEncode 32 u)

/-- `VarintCodec::encodeInt64`: zigzag then the unsigned emit loop. -/
def encodeInt64 (u : Nat) : List Nat :=
  varintBytes (zigzagEncode 64 u)

/-- The bounded decode loop shared by `VarintCodec::decodeUInt32Safe`
(`w = 32`, `maxBytes = 5`) and the identical loop inside
`VarintCodec::decodeInt64Safe` (`w = 64`, `maxBytes = 10`).
`data` is the remaining buffer (so `pos < buffer_size` becomes
"`data` is nonempty"), `pos` counts bytes consumed so far, and
`result` is accumulated with `result |= (byte & 0x7F) << shift`
in `w`-bit arithmetic.  Falling out of the loop throws Truncated;
a fifth (resp. tenth) continuation byte throws Overflow. -/
def decodeVarintAux (w maxBytes : Nat) :
    List Nat → Nat → Nat → Nat → Except DecodeError (Nat × Nat)
  | [], _, _, _ => .error .truncated
  | byte :: rest, pos, shift, result =>
    if shift < w then
      let result1 := result ||| (byte % 0x80 * 2 ^ shift % 2 ^ w)
      let pos1 := pos + 1
      if byte % 0x100 < 0x80 then .ok (result1, pos1)
      else if maxBytes ≤ pos1 then .error .overflow
      else decodeVarintAux w maxBytes rest pos1 (shift + 7) result1
    else .error .truncated

/-- `VarintCodec::decodeUInt32Safe`, returning the value and
`bytes_read`. -/
def decodeUInt32Safe (data : List Nat) : Except DecodeError (Nat × Nat) :=
  decodeVarintAux 32 5 data 0 0 0

/-- `VarintCodec::decodeInt32Safe`: unsigned decode then zigzag
decode. -/
def decodeInt32Safe (data : List Nat) : Except DecodeError (Nat × Nat) :=
  (decodeUInt32Safe data).map fun p => (zigzagDecode 32 p.1, p.2)

/-- `VarintCodec::decodeInt64Safe`: the 64-bit bounded loop then zigzag
decode. -/
def decodeInt64Safe (data : List Nat) : Except DecodeError (Nat × Nat) :=
  (decodeVarintAux 64 10 data 0 0 0).map fun p => (zigzagDecode 64 p.1, p.2)

end VarintCodec

/-! ### Bit-arithmetic helper lemmas -/

/-- Xor with an all-ones mask is complement below `2 ^ w`. -/
theorem xor_two_pow_sub_one {w m : Nat} (h : m < 2 ^ w) :
    m ^^^ (2 ^ w - 1) = 2 ^ w - 1 - m := by
  induction w generalizing m with
  | zero =>
    interval_cases m
    rfl
  | succ k ih =>
    have hbit : Nat.bit (decide (m % 2 = 1)) (m / 2) = m := by
      rcases Nat.mod_two_eq_zero_or_one m with hm | hm <;>
        simp [Nat.bit_val, hm] <;> omega
    have hones : Nat.bit true (2 ^ k - 1) = 2 ^ (k + 1) - 1 := by
      simp [Nat.bit_val]
      have := Nat.one_le_two_pow (n := k)
      rw [Nat.pow_succ]
      omega
    have hdiv : m / 2 < 2 ^ k := by
      rw [Nat.pow_succ] at h
      omega
    calc m ^^^ (2 ^ (k + 1) - 1)
        = Nat.bit (decide (m % 2 = 1)) (m / 2) ^^^ Nat.bit true (2 ^ k - 1) := by
          rw [hbit, hones]
      _ = Nat.bit (decide (m % 2 = 1) != true) (m / 2 ^^^ (2 ^ k - 1)) := by
          rw [Nat.xor_bit]
      _ = Nat.bit (decide (m % 2 = 1) != true) (2 ^ k - 1 - m / 2) := by
          rw [ih hdiv]
      _ = 2 ^ (k + 1) - 1 - m := by
          rcases Nat.mod_two_eq_zero_or_one m with hm | hm <;>
            simp [Nat.bit_val, hm] <;> rw [Nat.pow_succ] <;> omega

/-- Or-ing a value into disjoint high bits is addition. -/
theorem lor_eq_add_of_lt {a n : Nat} (b : Nat) (h : a < 2 ^ n) :
    a ||| b * 2 ^ n = a + b * 2 ^ n := by
  induction n generalizing a b with
  | zero =>
    interval_cases a
    simp
  | succ k ih =>
    have hbit : Nat.bit (decide (a % 2 = 1)) (a / 2) = a := by
      rcases Nat.mod_two_eq_zero_or_one a with ha | ha <;>
        simp [Nat.bit_val, ha] <;> omega
    have hb : Nat.bit false (b * 2 ^ k) = b * 2 ^ (k + 1) := by
      simp [Nat.bit_val, Nat.pow_succ]
      ring
    have hdiv : a / 2 < 2 ^ k := by
      rw [Nat.pow_succ] at h
      omega
    calc a ||| b * 2 ^ (k + 1)
        = Nat.bit (decide (a % 2 = 1)) (a / 2) ||| Nat.bit false (b * 2 ^ k) := by
          rw [hbit, hb]
      _ = Nat.bit (decide (a % 2 = 1) || false) (a / 2 ||| b * 2 ^ k) := by
          rw [Nat.lor_bit]
      _ = Nat.bit (decide (a % 2 = 1)) (a / 2 + b * 2 ^ k) := by
          rw [ih _ hdiv, Bool.or_false]
      _ = a + b * 2 ^ (k + 1) := by
          have hc : b * 2 ^ (k + 1) = 2 * (b * 2 ^ k) := by
            rw [Nat.pow_succ]
            ring
          rcases Nat.mod_two_eq_zero_or_one a with ha | ha <;>
            simp [Nat.bit_val, ha, hc] <;> omega

/-- Or stays below a power of two when both arguments do. -/
theorem lor_lt_two_pow {a b w : Nat} (ha : a < 2 ^ w) (hb : b < 2 ^ w) :
    a ||| b < 2 ^ w :=
  Nat.or_lt_two_pow ha hb

/-- Xor stays below a power of two when both arguments do. -/
theorem xor_lt_two_pow {a b w : Nat} (ha : a < 2 ^ w) (hb : b < 2 ^ w) :
    a ^^^ b < 2 ^ w :=
  Nat.bitwise_lt_two_pow ha hb

instance {ε α : Type} [DecidableEq ε] [DecidableEq α] : DecidableEq (Except ε α) :=
  fun x y =>
  match x, y with
  | .ok a, .ok b =>
    if h : a = b then .isTrue (by rw [h])
    else .isFalse (fun hc => h (Except.ok.inj hc))
  | .error a, .error b =>
    if h : a = b then .isTrue (by rw [h])
    else .isFalse (fun hc => h (Except.error.inj hc))
  | .ok _, .error _ => .isFalse (fun hc => Except.noConfusion hc)
  | .error _, .ok _ => .isFalse (fun hc => Except.noConfusion hc)

example : varintBytes 300 = [0xAC, 0x02] := by decide
example : VarintCodec.decodeUInt32Safe [0xAC, 0x02] = .ok (300, 2) := by decide
example : VarintCodec.decodeUInt32Safe [0x80, 0x80] = .error .truncated := by decide
example : VarintCodec.decodeUInt32Safe [0xFF, 0xFF, 0xFF, 0xFF, 0xFF, 0xFF]
    = .error .overflow := by decide
example : zigzagEncode 32 (2 ^ 32 - 1) = 1 := by decide
example : zigzagDecode 32 1 = 2 ^ 32 - 1 := by decide

/-! ### Varint round-trip and decoder characterization lemmas -/

theorem varintBytes_length_pos (v : Nat) : 0 < (varintBytes v).length := by
  rw [varintBytes_eq]
  split <;> simp

theorem varintBytes_length_le :
    ∀ k v : Nat, 1 ≤ k → v < 2 ^ (7 * k) → (varintBytes v).length ≤ k := by
  intro k
  induction k with
  | zero => omega
  | succ m ih =>
    intro v _ hv
    rw [varintBytes_eq]
    split
    · next hge =>
      have hd : v / 0x80 < 2 ^ (7 * m) := by
        rw [Nat.div_lt_iff_lt_mul (by omega : 0 < 0x80)]
        calc v < 2 ^ (7 * (m + 1)) := hv
          _ = 2 ^ (7 * m) * 0x80 := by rw [show 7 * (m + 1) = 7 * m + 7 by omega, Nat.pow_add]
      have hm1 : 1 ≤ m := by
        by_contra hcon
        have hm0 : m = 0 := by omega
        subst hm0
        simp at hd
        omega
      simpa using ih (v / 0x80) hm1 hd
    · simp

/-- Generalized round trip for the shared varint decode loop over the
shared emit loop, tracking the loop accumulators. -/
theorem decodeVarintAux_varintBytes (w maxB : Nat) (h7 : 7 * (maxB - 1) < w) :
    ∀ v pos result : Nat, ∀ rest : List Nat,
      v < 2 ^ (w - 7 * pos) →
      result < 2 ^ (7 * pos) →
      pos + (varintBytes v).length ≤ maxB →
      VarintCodec.decodeVarintAux w maxB (varintBytes v ++ rest) pos (7 * pos) result
        = .ok (result + v * 2 ^ (7 * pos), pos + (varintBytes v).length) := by
  intro v
  induction v using Nat.strong_induction_on with
  | _ v ih =>
    intro pos result rest hv hres hpos
    have hlen1 := varintBytes_length_pos v
    have hposlt : pos < maxB := by omega
    have hshift : 7 * pos < w := by
      calc 7 * pos ≤ 7 * (maxB - 1) := by omega
        _ < w := h7
    rcases Nat.lt_or_ge v 0x80 with hlt | hge
    · have hb : varintBytes v = [v] := by
        rw [varintBytes_eq, if_neg (by omega)]
      rw [hb]
      have hmul : v * 2 ^ (7 * pos) < 2 ^ w := by
        calc v * 2 ^ (7 * pos) < 2 ^ (w - 7 * pos) * 2 ^ (7 * pos) :=
              (Nat.mul_lt_mul_right (Nat.pos_pow_of_pos _ (by omega))).mpr hv
          _ = 2 ^ w := by rw [← Nat.pow_add]; congr 1; omega
      simp only [List.cons_append, VarintCodec.decodeVarintAux, if_pos hshift]
      rw [Nat.mod_eq_of_lt (show v % 0x80 * 2 ^ (7 * pos) < 2 ^ w by
            rw [Nat.mod_eq_of_lt hlt]; exact hmul)]
      rw [Nat.mod_eq_of_lt hlt, lor_eq_add_of_lt v hres]
      rw [if_pos (show v % 0x100 < 0x80 by rw [Nat.mod_eq_of_lt (by omega)]; exact hlt)]
      simp
    · have hb : varintBytes v = (v % 0x80 + 0x80) :: varintBytes (v / 0x80) := by
        rw [varintBytes_eq, if_pos hge]
      have hw7 : 7 * pos + 7 < w := by
        have h1 : (2 : Nat) ^ 7 ≤ v := hge
        have h2 : (2 : Nat) ^ 7 < 2 ^ (w - 7 * pos) := Nat.lt_of_le_of_lt h1 hv
        have h3 : 7 < w - 7 * pos := by
          by_contra hcon
          exact absurd h2 (Nat.not_lt.mpr (Nat.pow_le_pow_right (by omega) (by omega)))
        omega
      have hlen' := varintBytes_length_pos (v / 0x80)
      have hmul : v % 0x80 * 2 ^ (7 * pos) < 2 ^ w := by
        calc v % 0x80 * 2 ^ (7 * pos) < 0x80 * 2 ^ (7 * pos) :=
              (Nat.mul_lt_mul_right (Nat.pos_pow_of_pos _ (by omega))).mpr
                (Nat.mod_lt _ (by omega))
          _ = 2 ^ (7 * pos + 7) := by rw [Nat.pow_add]; ring
          _ ≤ 2 ^ w := Nat.pow_le_pow_right (by omega) (by omega)
      rw [hb]
      simp only [List.cons_append, VarintCodec.decodeVarintAux, if_pos hshift]
      rw [show (v % 0x80 + 0x80) % 0x80 = v % 0x80 by omega]
      rw [Nat.mod_eq_of_lt hmul]
      rw [lor_eq_add_of_lt _ hres]
      rw [if_neg (show ¬ (v % 0x80 + 0x80) % 0x100 < 0x80 by
            have : v % 0x80 < 0x80 := Nat.mod_lt _ (by omega)
            rw [Nat.mod_eq_of_lt (by omega)]
            omega)]
      rw [hb] at hpos
      rw [if_neg (show ¬ maxB ≤ pos + 1 by
            simp only [List.length_cons] at hpos
            omega)]
      have hrec := ih (v / 0x80) (Nat.div_lt_self (by omega) (by omega))
        (pos + 1)
        (result + v % 0x80 * 2 ^ (7 * pos)) rest
        (by
          rw [Nat.div_lt_iff_lt_mul (by omega : 0 < 0x80)]
          calc v < 2 ^ (w - 7 * pos) := hv
            _ = 2 ^ (w - 7 * (pos + 1)) * 0x80 := by
                rw [show (0x80 : Nat) = 2 ^ 7 by rfl, ← Nat.pow_add]
                congr 1
                omega)
        (by
          have h1 : result + v % 0x80 * 2 ^ (7 * pos)
              < 2 ^ (7 * pos) + 0x7F * 2 ^ (7 * pos) := by
            have : v % 0x80 ≤ 0x7F := by omega
            have := Nat.mul_le_mul_right (2 ^ (7 * pos)) this
            omega
          calc result + v % 0x80 * 2 ^ (7 * pos)
              < 2 ^ (7 * pos) + 0x7F * 2 ^ (7 * pos) := h1
            _ = 2 ^ (7 * pos + 7) := by rw [Nat.pow_add]; ring
            _ = 2 ^ (7 * (pos + 1)) := by rw [show 7 * (pos + 1) = 7 * pos + 7 by omega])
        (by
          simp only [List.length_cons] at hpos
          omega)
      rw [show 7 * pos + 7 = 7 * (pos + 1) by omega]
      simp only [List.append_eq]
      rw [hrec]
      congr 2
      · have hsplit : v = 0x80 * (v / 0x80) + v % 0x80 := (Nat.div_add_mod v 0x80).symm
        have hp : 2 ^ (7 * (pos + 1)) = 2 ^ (7 * pos) * 0x80 := by
          rw [show 7 * (pos + 1) = 7 * pos + 7 by omega, Nat.pow_add]
        rw [hp]
        set c := 2 ^ (7 * pos)
        calc result + v % 0x80 * c + v / 0x80 * (c * 0x80)
            = result + (v % 0x80 + 0x80 * (v / 0x80)) * c := by ring
          _ = result + v * c := by rw [show v % 0x80 + 0x80 * (v / 0x80) = v by omega]
      · simp only [List.length_cons]
        omega

/-- Top-level varint round trip: decoding the emitted bytes (with any
trailing bytes) returns the value and its encoded length. -/
theorem decodeVarint_varintBytes {w maxB : Nat} (h7 : 7 * (maxB - 1) < w)
    (hwb : w ≤ 7 * maxB) (v : Nat) (rest : List Nat) (hv : v < 2 ^ w) :
    VarintCodec.decodeVarintAux w maxB (varintBytes v ++ rest) 0 0 0
      = .ok (v, (varintBytes v).length) := by
  have hmb : 1 ≤ maxB := by omega
  have hle : (varintBytes v).length ≤ maxB :=
    varintBytes_length_le maxB v hmb
      (Nat.lt_of_lt_of_le hv (Nat.pow_le_pow_right (by omega) hwb))
  have h := decodeVarintAux_varintBytes w maxB h7 v 0 0 rest
    (by simpa using hv) (by simp) (by simpa using hle)
  simpa using h

/-! ### Zigzag lemmas -/

theorem zigzagEncode_lt (w u : Nat) : zigzagEncode w u < 2 ^ w := by
  unfold zigzagEncode
  have hpos : 0 < 2 ^ w := Nat.pos_pow_of_pos _ (by omega)
  split
  · exact xor_lt_two_pow (Nat.mod_lt _ hpos) hpos
  · exact xor_lt_two_pow (Nat.mod_lt _ hpos) (by omega)

theorem zigzagDecode_lt {w e : Nat} (he : e < 2 ^ w) :
    zigzagDecode w e < 2 ^ w := by
  unfold zigzagDecode
  have hpos : 0 < 2 ^ w := Nat.pos_pow_of_pos _ (by omega)
  split
  · exact xor_lt_two_pow (by omega) (by omega)
  · exact xor_lt_two_pow (by omega) hpos

theorem zigzagDecode_zigzagEncode {w u : Nat} (hw : 1 ≤ w) (hu : u < 2 ^ w) :
    zigzagDecode w (zigzagEncode w u) = u := by
  have hP : 2 ^ w = 2 * 2 ^ (w - 1) := by
    rw [← Nat.pow_succ']
    congr 1
    omega
  set P := 2 ^ (w - 1) with hPdef
  have hPpos : 0 < P := Nat.pos_pow_of_pos _ (by omega)
  unfold zigzagEncode zigzagDecode
  rcases Nat.lt_or_ge u P with hlt | hge
  · rw [if_pos hlt, Nat.xor_zero, Nat.mod_eq_of_lt (by omega)]
    rw [if_neg (by omega)]
    simp [Nat.mul_div_cancel_left _ (by omega : 0 < 2)]
  · rw [if_neg (by omega)]
    have hm : 2 * u % 2 ^ w = 2 * u - 2 * P := by
      have h1 : 2 * u - 2 * P < 2 * P := by omega
      rw [hP, Nat.mod_eq_sub_mod (by omega), Nat.mod_eq_of_lt h1]
    rw [hm]
    have hlt2 : 2 * u - 2 * P < 2 ^ w := by omega
    rw [xor_two_pow_sub_one hlt2]
    have he : 2 ^ w - 1 - (2 * u - 2 * P) = 2 * (2 * P - 1 - u) + 1 := by omega
    rw [he]
    rw [if_pos (by omega)]
    have hd : (2 * (2 * P - 1 - u) + 1) / 2 = 2 * P - 1 - u := by omega
    rw [hd]
    rw [xor_two_pow_sub_one (by omega)]
    omega

/-! ### General decoder-loop properties -/

/-- Appending extra bytes after a successful decode does not change the
result. -/
theorem decodeVarintAux_append (w maxB : Nat) (extra : List Nat) :
    ∀ (data : List Nat) (pos shift result v n : Nat),
      VarintCodec.decodeVarintAux w maxB data pos shift result = .ok (v, n) →
      VarintCodec.decodeVarintAux w maxB (data ++ extra) pos shift result = .ok (v, n) := by
  intro data
  induction data with
  | nil =>
    intro pos shift result v n h
    exact absurd h (by simp [VarintCodec.decodeVarintAux])
  | cons byte rest ih =>
    intro pos shift result v n h
    rw [VarintCodec.decodeVarintAux] at h
    simp only [List.cons_append]
    rw [VarintCodec.decodeVarintAux]
    by_cases hs : shift < w
    · rw [if_pos hs] at h ⊢
      by_cases hc : byte % 0x100 < 0x80
      · rwa [if_pos hc] at h ⊢
      · rw [if_neg hc] at h ⊢
        by_cases hm : maxB ≤ pos + 1
        · rw [if_pos hm] at h
          exact absurd h (by simp)
        · rw [if_neg hm] at h ⊢
          exact ih _ _ _ _ _ h
    · rw [if_neg hs] at h
      exact absurd h (by simp)

/-- A successful decode consumes at least one and at most `data.length`
bytes beyond the starting position. -/
theorem decodeVarintAux_consumed (w maxB : Nat) :
    ∀ (data : List Nat) (pos shift result v n : Nat),
      VarintCodec.decodeVarintAux w maxB data pos shift result = .ok (v, n) →
      pos < n ∧ n ≤ pos + data.length := by
  intro data
  induction data with
  | nil =>
    intro pos shift result v n h
    exact absurd h (by simp [VarintCodec.decodeVarintAux])
  | cons byte rest ih =>
    intro pos shift result v n h
    rw [VarintCodec.decodeVarintAux] at h
    by_cases hs : shift < w
    · rw [if_pos hs] at h
      by_cases hc : byte % 0x100 < 0x80
      · rw [if_pos hc] at h
        have := Except.ok.inj h
        have h2 := congrArg Prod.snd this
        simp at h2
        simp [← h2]
      · rw [if_neg hc] at h
        by_cases hm : maxB ≤ pos + 1
        · rw [if_pos hm] at h
          exact absurd h (by simp)
        · rw [if_neg hm] at h
          have := ih _ _ _ _ _ h
          simp only [List.length_cons]
          omega
    · rw [if_neg hs] at h
      exact absurd h (by simp)

/-- The decoded value stays below `2 ^ w` when the accumulator does. -/
theorem decodeVarintAux_lt (w maxB : Nat) :
    ∀ (data : List Nat) (pos shift result v n : Nat),
      result < 2 ^ w →
      VarintCodec.decodeVarintAux w maxB data pos shift result = .ok (v, n) →
      v < 2 ^ w := by
  intro data
  induction data with
  | nil =>
    intro pos shift result v n _ h
    exact absurd h (by simp [VarintCodec.decodeVarintAux])
  | cons byte rest ih =>
    intro pos shift result v n hres h
    rw [VarintCodec.decodeVarintAux] at h
    have hpos : 0 < 2 ^ w := Nat.pos_pow_of_pos _ (by omega)
    have hacc : result ||| byte % 0x80 * 2 ^ shift % 2 ^ w < 2 ^ w :=
      lor_lt_two_pow hres (Nat.mod_lt _ hpos)
    by_cases hs : shift < w
    · rw [if_pos hs] at h
      by_cases hc : byte % 0x100 < 0x80
      · rw [if_pos hc] at h
        have := Except.ok.inj h
        have h1 := congrArg Prod.fst this
        simp at h1
        omega
      · rw [if_neg hc] at h
        by_cases hm : maxB ≤ pos + 1
        · rw [if_pos hm] at h
          exact absurd h (by simp)
        · rw [if_neg hm] at h
          exact ih _ _ _ _ _ hacc h
    · rw [if_neg hs] at h
      exact absurd h (by simp)

/-- A byte continues a varint when its high bit `0x80` is set. -/
def byteContinues (b : Nat) : Prop := 0x80 ≤ b % 0x100

instance (b : Nat) : Decidable (byteContinues b) := by
  unfold byteContinues
  infer_instance

/-- The bounded loop falls off the end with Truncated exactly when the
buffer is shorter than the remaining byte budget and every byte of it
has the continuation bit set. -/
theorem decodeVarintAux_truncated_iff {w maxB : Nat} (h7 : 7 * (maxB - 1) < w) :
    ∀ (data : List Nat) (pos result : Nat), pos < maxB →
      (VarintCodec.decodeVarintAux w maxB data pos (7 * pos) result
          = .error .truncated
        ↔ data.length < maxB - pos ∧ ∀ b ∈ data, byteContinues b) := by
  intro data
  induction data with
  | nil =>
    intro pos result hpos
    simp [VarintCodec.decodeVarintAux]
    omega
  | cons byte rest ih =>
    intro pos result hpos
    have hshift : 7 * pos < w := by
      calc 7 * pos ≤ 7 * (maxB - 1) := by omega
        _ < w := h7
    rw [VarintCodec.decodeVarintAux, if_pos hshift]
    by_cases hc : byte % 0x100 < 0x80
    · rw [if_pos hc]
      constructor
      · intro h
        exact absurd h (by simp)
      · intro ⟨_, hall⟩
        have := hall byte (by simp)
        unfold byteContinues at this
        omega
    · rw [if_neg hc]
      by_cases hm : maxB ≤ pos + 1
      · rw [if_pos hm]
        constructor
        · intro h
          exact absurd h (by simp)
        · intro ⟨hlen, _⟩
          simp only [List.length_cons] at hlen
          omega
      · rw [if_neg hm]
        rw [show 7 * pos + 7 = 7 * (pos + 1) by omega]
        rw [ih (pos + 1) _ (by omega)]
        constructor
        · intro ⟨hlen, hall⟩
          refine ⟨by simp only [List.length_cons]; omega, ?_⟩
          intro b hb
          rcases List.mem_cons.mp hb with hb | hb
          · subst hb
            unfold byteContinues
            omega
          · exact hall b hb
        · intro ⟨hlen, hall⟩
          refine ⟨by simp only [List.length_cons] at hlen; omega, ?_⟩
          intro b hb
          exact hall b (List.mem_cons_of_mem _ hb)

/-- The bounded loop throws Overflow exactly when the remaining byte
budget is available and entirely made of continuation bytes. -/
theorem decodeVarintAux_overflow_iff {w maxB : Nat} (h7 : 7 * (maxB - 1) < w) :
    ∀ (data : List Nat) (pos result : Nat), pos < maxB →
      (VarintCodec.decodeVarintAux w maxB data pos (7 * pos) result
          = .error .overflow
        ↔ maxB - pos ≤ data.length ∧
            ∀ b ∈ data.take (maxB - pos), byteContinues b) := by
  intro data
  induction data with
  | nil =>
    intro pos result hpos
    simp [VarintCodec.decodeVarintAux]
    omega
  | cons byte rest ih =>
    intro pos result hpos
    have hshift : 7 * pos < w := by
      calc 7 * pos ≤ 7 * (maxB - 1) := by omega
        _ < w := h7
    have htake : ∃ k, maxB - pos = k + 1 := ⟨maxB - pos - 1, by omega⟩
    obtain ⟨k, hk⟩ := htake
    rw [VarintCodec.decodeVarintAux, if_pos hshift]
    by_cases hc : byte % 0x100 < 0x80
    · rw [if_pos hc]
      constructor
      · intro h
        exact absurd h (by simp)
      · intro ⟨_, hall⟩
        have := hall byte (by rw [hk]; simp)
        unfold byteContinues at this
        omega
    · rw [if_neg hc]
      by_cases hm : maxB ≤ pos + 1
      · rw [if_pos hm]
        have hk0 : k = 0 := by omega
        constructor
        · intro _
          refine ⟨by simp only [List.length_cons]; omega, ?_⟩
          intro b hb
          rw [hk, hk0] at hb
          simp at hb
          subst hb
          unfold byteContinues
          omega
        · intro _
          rfl
      · rw [if_neg hm]
        rw [show 7 * pos + 7 = 7 * (pos + 1) by omega]
        rw [ih (pos + 1) _ (by omega)]
        have hk1 : maxB - (pos + 1) = k := by omega
        rw [hk1, hk]
        simp only [List.take_succ_cons, List.length_cons]
        constructor
        · intro ⟨hlen, hall⟩
          refine ⟨by omega, ?_⟩
          intro b hb
          rcases List.mem_cons.mp hb with hb | hb
          · subst hb
            unfold byteContinues
            omega
          · exact hall b hb
        · intro ⟨hlen, hall⟩
          refine ⟨by omega, ?_⟩
          intro b hb
          exact hall b (List.mem_cons_of_mem _ hb)

/-- The bounded loop succeeds, consuming `i + 1` bytes, whenever the
first byte without the continuation bit sits at index `i` within both
the buffer and the byte budget. -/
theorem decodeVarintAux_ok {w maxB : Nat} (h7 : 7 * (maxB - 1) < w) :
    ∀ (data : List Nat) (i pos result : Nat) (hi : i < data.length),
      pos < maxB → i < maxB - pos →
      (∀ b ∈ data.take i, byteContinues b) →
      ¬ byteContinues (data.get ⟨i, hi⟩) →
      ∃ v, VarintCodec.decodeVarintAux w maxB data pos (7 * pos) result
            = .ok (v, pos + i + 1) := by
  intro data
  induction data with
  | nil =>
    intro i pos result hi
    simp at hi
  | cons byte rest ih =>
    intro i pos result hi hpos hbudget htake hclear
    have hshift : 7 * pos < w := by
      calc 7 * pos ≤ 7 * (maxB - 1) := by omega
        _ < w := h7
    rw [VarintCodec.decodeVarintAux, if_pos hshift]
    cases i with
    | zero =>
      have hc : byte % 0x100 < 0x80 := by
        unfold byteContinues at hclear
        simp at hclear
        omega
      rw [if_pos hc]
      exact ⟨_, rfl⟩
    | succ j =>
      have hcont : byteContinues byte := htake byte (by simp)
      have hc : ¬ byte % 0x100 < 0x80 := by
        unfold byteContinues at hcont
        omega
      rw [if_neg hc, if_neg (show ¬ maxB ≤ pos + 1 by omega)]
      rw [show 7 * pos + 7 = 7 * (pos + 1) by omega]
      have hj : j < rest.length := by simp at hi; omega
      obtain ⟨v, hv⟩ := ih j (pos + 1) _ hj (by omega) (by omega)
        (by
          intro b hb
          exact htake b (by simp [List.take_succ_cons]; exact Or.inr hb))
        (by simpa using hclear)
      exact ⟨v, by rw [hv]; congr 1; congr 1; omega⟩

/-! ### Run-length encoder (`RLEEncoder` in src/encoding.cpp) -/

namespace RLEEncoder

/-- The run-construction loop of `RLEEncoder::encodeInt32` /
`encodeInt64`: starting at each position, the run extends as long as
successive values equal the current one (`run_length` starts at 1 and
grows while `values[i + run_length] == current`).  Produces the list of
`(run_length, value)` pairs. -/
def rleRunsAux : Nat → List Nat → List (Nat × Nat)
  | _, [] => []
  | 0, _ :: _ => []
  | fuel + 1, v :: rest =>
    (1 + (rest.takeWhile (fun x => x == v)).length, v) ::
      rleRunsAux fuel (rest.dropWhile (fun x => x == v))

def rleRuns (values : List Nat) : List (Nat × Nat) :=
  rleRunsAux values.length values

theorem rleRunsAux_congr :
    ∀ (n : Nat) (values : List Nat) (fuel1 fuel2 : Nat),
      values.length ≤ n → values.length ≤ fuel1 → values.length ≤ fuel2 →
      rleRunsAux fuel1 values = rleRunsAux fuel2 values := by
  intro n
  induction n with
  | zero =>
    intro values fuel1 fuel2 hn _ _
    have : values = [] := List.length_eq_zero.mp (by omega)
    subst this
    cases fuel1 <;> cases fuel2 <;> rfl
  | succ k ih =>
    intro values fuel1 fuel2 hn h1 h2
    match values with
    | [] => cases fuel1 <;> cases fuel2 <;> rfl
    | v :: rest =>
      simp only [List.length_cons] at hn h1 h2
      obtain ⟨f1, rfl⟩ : ∃ f, fuel1 = f + 1 := ⟨fuel1 - 1, by omega⟩
      obtain ⟨f2, rfl⟩ : ∃ f, fuel2 = f + 1 := ⟨fuel2 - 1, by omega⟩
      have hd : (rest.dropWhile (fun x => x == v)).length ≤ rest.length :=
        (List.dropWhile_sublist _).length_le
      simp only [rleRunsAux]
      rw [ih (rest.dropWhile (fun x => x == v)) f1 f2 (by omega) (by omega) (by omega)]

/-- The defining recursion of the run-construction loop. -/
theorem rleRuns_cons (v : Nat) (rest : List Nat) :
    rleRuns (v :: rest) =
      (1 + (rest.takeWhile (fun x => x == v)).length, v) ::
        rleRuns (rest.dropWhile (fun x => x == v)) := by
  unfold rleRuns
  simp only [List.length_cons, rleRunsAux]
  have hd : (rest.dropWhile (fun x => x == v)).length ≤ rest.length :=
    (List.dropWhile_sublist _).length_le
  rw [rleRunsAux_congr rest.length (rest.dropWhile (fun x => x == v)) rest.length
    (rest.dropWhile (fun x => x == v)).length hd hd (by omega)]

/-- Serialization of the run list: for each run, `varint run_length`
then `zigzag-varint value` (the `run_length` is a `uint32`). -/
def serializeRuns (w : Nat) : List (Nat × Nat) → List Nat
  | [] => []
  | r :: rs =>
    varintBytes (r.1 % 2 ^ 32) ++ varintBytes (zigzagEncode w r.2) ++ serializeRuns w rs

/-- Shared body of `RLEEncoder::encodeInt32` (`w = 32`) and
`RLEEncoder::encodeInt64` (`w = 64`): empty input returns zero bytes,
otherwise `varint num_runs` followed by the serialized runs
(`num_runs` is cast to `uint32`). -/
def encodeRLE (w : Nat) (values : List Nat) : List Nat :=
  match values with
  | [] => []
  | _ :: _ =>
    varintBytes ((rleRuns values).length % 2 ^ 32) ++ serializeRuns w (rleRuns values)

/-- `RLEEncoder::encodeInt32`. -/
def encodeInt32 (values : List Nat) : List Nat := encodeRLE 32 values

/-- `RLEEncoder::encodeInt64`. -/
def encodeInt64 (values : List Nat) : List Nat := encodeRLE 64 values

/-- The decode loop of `RLEEncoder::decodeInt32` / `decodeInt64`: for
each of the `num_runs` runs, decode `run_length` with
`decodeUInt32Safe`, decode the value with the width-appropriate signed
decoder, and append `run_length` copies of the value. -/
def rleDecodeLoop (w maxB : Nat) : Nat → List Nat → List Nat → Except DecodeError (List Nat)
  | 0, _, acc => .ok acc
  | count + 1, data, acc =>
    match VarintCodec.decodeVarintAux 32 5 data 0 0 0 with
    | .error e => .error e
    | .ok (run_length, b1) =>
      match VarintCodec.decodeVarintAux w maxB (data.drop b1) 0 0 0 with
      | .error e => .error e
      | .ok (enc, b2) =>
        rleDecodeLoop w maxB count (data.drop (b1 + b2))
          (acc ++ List.replicate run_length (zigzagDecode w enc))

/-- Shared body of `RLEEncoder::decodeInt32` (`w = 32`, `maxB = 5`) and
`RLEEncoder::decodeInt64` (`w = 64`, `maxB = 10`): decode
`varint num_runs`, then run the loop.  `num_values` is only a capacity
hint (`result.reserve(num_values)`) and never influences the result. -/
def decodeRLE (w maxB : Nat) (data : List Nat) (num_values : Nat) :
    Except DecodeError (List Nat) :=
  match VarintCodec.decodeVarintAux 32 5 data 0 0 0 with
  | .error e => .error e
  | .ok (num_runs, b) => rleDecodeLoop w maxB num_runs (data.drop b) []

/-- `RLEEncoder::decodeInt32`. -/
def decodeInt32 (data : List Nat) (num_values : Nat) : Except DecodeError (List Nat) :=
  decodeRLE 32 5 data num_values

/-- `RLEEncoder::decodeInt64`. -/
def decodeInt64 (data : List Nat) (num_values : Nat) : Except DecodeError (List Nat) :=
  decodeRLE 64 10 data num_values

/-- Parse-only companion of `rleDecodeLoop`: the `(run_length, value)`
pairs the decode loop reads from the buffer. -/
def rleParseRuns (w maxB : Nat) : Nat → List Nat → Except DecodeError (List (Nat × Nat))
  | 0, _ => .ok []
  | count + 1, data =>
    match VarintCodec.decodeVarintAux 32 5 data 0 0 0 with
    | .error e => .error e
    | .ok (run_length, b1) =>
      match VarintCodec.decodeVarintAux w maxB (data.drop b1) 0 0 0 with
      | .error e => .error e
      | .ok (enc, b2) =>
        (rleParseRuns w maxB count (data.drop (b1 + b2))).map
          (fun rs => (run_length, zigzagDecode w enc) :: rs)

/-- Replication of a parsed run list into the decoded value list. -/
def expandRuns : List (Nat × Nat) → List Nat
  | [] => []
  | r :: rs => List.replicate r.1 r.2 ++ expandRuns rs

end RLEEncoder

example : RLEEncoder.encodeInt32 [5, 5, 5] = [1, 3, 10] := by decide
example : RLEEncoder.decodeInt32 [1, 3, 10] 3 = .ok [5, 5, 5] := by decide
example : RLEEncoder.decodeInt32 [] 0 = .error .truncated := by decide
example : RLEEncoder.decodeInt32 [1, 0, 10] 0 = .ok [] := by decide

/-! ### RLE round-trip lemmas -/

namespace RLEEncoder

theorem rleRuns_nil : rleRuns [] = [] := rfl

/-- Expanding the computed runs recovers the input. -/
theorem expandRuns_rleRuns :
    ∀ (n : Nat) (values : List Nat), values.length ≤ n →
      expandRuns (rleRuns values) = values := by
  intro n
  induction n with
  | zero =>
    intro values hn
    have : values = [] := List.length_eq_zero.mp (by omega)
    subst this
    rfl
  | succ k ih =>
    intro values hn
    match values with
    | [] => rfl
    | v :: rest =>
      simp only [List.length_cons] at hn
      rw [rleRuns_cons]
      simp only [expandRuns]
      have hd : (rest.dropWhile (fun x => x == v)).length ≤ rest.length :=
        (List.dropWhile_sublist _).length_le
      rw [ih _ (by omega)]
      have ht : rest.takeWhile (fun x => x == v)
          = List.replicate (rest.takeWhile (fun x => x == v)).length v := by
        rw [List.eq_replicate_iff]
        refine ⟨rfl, ?_⟩
        intro b hb
        have hb2 := List.mem_takeWhile_imp hb
        simp only [beq_iff_eq] at hb2
        exact hb2
      calc List.replicate (1 + (rest.takeWhile (fun x => x == v)).length) v ++
              rest.dropWhile (fun x => x == v)
          = (v :: List.replicate (rest.takeWhile (fun x => x == v)).length v) ++
              rest.dropWhile (fun x => x == v) := by
            rw [show 1 + (rest.takeWhile (fun x => x == v)).length
                  = (rest.takeWhile (fun x => x == v)).length + 1 by omega]
            rw [List.replicate_succ]
        _ = v :: (rest.takeWhile (fun x => x == v) ++ rest.dropWhile (fun x => x == v)) := by
            rw [← ht]
            simp
        _ = v :: rest := by rw [List.takeWhile_append_dropWhile]

/-- Every computed run length is positive. -/
theorem rleRuns_pos :
    ∀ (n : Nat) (values : List Nat), values.length ≤ n →
      ∀ r ∈ rleRuns values, 0 < r.1 := by
  intro n
  induction n with
  | zero =>
    intro values hn
    have : values = [] := List.length_eq_zero.mp (by omega)
    subst this
    simp [rleRuns_nil]
  | succ k ih =>
    intro values hn r hr
    match values with
    | [] => simp [rleRuns_nil] at hr
    | v :: rest =>
      simp only [List.length_cons] at hn
      rw [rleRuns_cons] at hr
      rcases List.mem_cons.mp hr with hr | hr
      · subst hr
        simp
      · have hd : (rest.dropWhile (fun x => x == v)).length ≤ rest.length :=
          (List.dropWhile_sublist _).length_le
        exact ih _ (by omega) r hr

theorem expandRuns_length :
    ∀ runs : List (Nat × Nat),
      (expandRuns runs).length = (runs.map Prod.fst).sum := by
  intro runs
  induction runs with
  | nil => rfl
  | cons r rs ih => simp [expandRuns, ih]

theorem length_le_sum_of_pos :
    ∀ runs : List (Nat × Nat), (∀ r ∈ runs, 0 < r.1) →
      runs.length ≤ (runs.map Prod.fst).sum := by
  intro runs
  induction runs with
  | nil => simp
  | cons r rs ih =>
    intro h
    have h1 := h r (by simp)
    have h2 := ih (fun r hr => h r (List.mem_cons_of_mem _ hr))
    simp only [List.map_cons, List.sum_cons, List.length_cons]
    omega

theorem single_le_sum_nat :
    ∀ (l : List Nat) (x : Nat), x ∈ l → x ≤ l.sum := by
  intro l
  induction l with
  | nil => simp
  | cons a t ih =>
    intro x hx
    rcases List.mem_cons.mp hx with hx | hx
    · simp [hx]
    · have := ih x hx
      simp only [List.sum_cons]
      omega

theorem mem_expandRuns :
    ∀ (runs : List (Nat × Nat)) (r : Nat × Nat), r ∈ runs → 0 < r.1 →
      r.2 ∈ expandRuns runs := by
  intro runs
  induction runs with
  | nil => simp
  | cons a rs ih =>
    intro r hr hpos
    rcases List.mem_cons.mp hr with hr | hr
    · subst hr
      simp only [expandRuns]
      exact List.mem_append.mpr (Or.inl (List.mem_replicate.mpr ⟨by omega, rfl⟩))
    · simp only [expandRuns]
      exact List.mem_append.mpr (Or.inr (ih r hr hpos))

/-- The value of the head of a non-trivial `dropWhile (· == v)` differs
from `v`. -/
theorem dropWhile_beq_head_ne :
    ∀ (l : List Nat) (v x : Nat) (xs : List Nat),
      l.dropWhile (fun y => y == v) = x :: xs → x ≠ v := by
  intro l
  induction l with
  | nil => intro v x xs h; simp [List.dropWhile] at h
  | cons a t ih =>
    intro v x xs h
    rw [List.dropWhile_cons] at h
    by_cases ha : (a == v) = true
    · rw [if_pos ha] at h
      exact ih v x xs h
    · rw [if_neg ha] at h
      have hax := (List.cons.inj h).1
      intro hc
      exact ha (by rw [hax, hc]; simp)

/-- The computed runs are maximal: the values of adjacent runs differ. -/
theorem rleRuns_chain :
    ∀ (n : Nat) (values : List Nat), values.length ≤ n →
      List.Chain' (fun a b : Nat × Nat => a.2 ≠ b.2) (rleRuns values) := by
  intro n
  induction n with
  | zero =>
    intro values hn
    have : values = [] := List.length_eq_zero.mp (by omega)
    subst this
    simp [rleRuns_nil]
  | succ k ih =>
    intro values hn
    match values with
    | [] => simp [rleRuns_nil]
    | v :: rest =>
      simp only [List.length_cons] at hn
      rw [rleRuns_cons]
      have hd : (rest.dropWhile (fun x => x == v)).length ≤ rest.length :=
        (List.dropWhile_sublist _).length_le
      rw [List.chain'_cons']
      refine ⟨?_, ih _ (by omega)⟩
      intro y hy
      match hdrop : rest.dropWhile (fun x => x == v) with
      | [] =>
        rw [hdrop] at hy
        simp [rleRuns_nil] at hy
      | x :: xs =>
        rw [hdrop, rleRuns_cons] at hy
        simp only [List.head?_cons, Option.mem_def, Option.some.injEq] at hy
        have hne := dropWhile_beq_head_ne rest v x xs hdrop
        rw [← hy]
        simp only [ne_eq]
        intro hc
        exact hne (by omega)

/-- Decoding the serialization of a run list (with any trailing bytes)
replays exactly the runs. -/
theorem rleDecodeLoop_serializeRuns {w maxB : Nat}
    (h7 : 7 * (maxB - 1) < w) (hwb : w ≤ 7 * maxB) :
    ∀ (runs : List (Nat × Nat)) (acc rest : List Nat),
      (∀ r ∈ runs, r.1 < 2 ^ 32 ∧ r.2 < 2 ^ w) →
      rleDecodeLoop w maxB runs.length (serializeRuns w runs ++ rest) acc
        = .ok (acc ++ expandRuns runs) := by
  intro runs
  induction runs with
  | nil =>
    intro acc rest _
    simp [serializeRuns, rleDecodeLoop, expandRuns]
  | cons r rs ih =>
    intro acc rest hr
    have hr1 := (hr r (by simp)).1
    have hr2 := (hr r (by simp)).2
    have hw1 : 1 ≤ w := by omega
    simp only [serializeRuns, List.length_cons, rleDecodeLoop]
    rw [List.append_assoc, List.append_assoc]
    rw [Nat.mod_eq_of_lt hr1]
    rw [decodeVarint_varintBytes (by omega) (by omega) r.1 _ hr1]
    dsimp only
    rw [List.drop_left]
    rw [decodeVarint_varintBytes h7 hwb (zigzagEncode w r.2) _ (zigzagEncode_lt w r.2)]
    dsimp only
    rw [← List.drop_drop, List.drop_left, List.drop_left]
    rw [zigzagDecode_zigzagEncode hw1 hr2]
    rw [ih (acc ++ List.replicate r.1 r.2) rest
      (fun q hq => hr q (List.mem_cons_of_mem _ hq))]
    simp [expandRuns]

end RLEEncoder

namespace RLEEncoder

/-- Bounds satisfied by the runs of a value list. -/
theorem rleRuns_bounds {w : Nat} (values : List Nat)
    (hv : ∀ v ∈ values, v < 2 ^ w) (hlen : values.length < 2 ^ 32) :
    ∀ r ∈ rleRuns values, r.1 < 2 ^ 32 ∧ r.2 < 2 ^ w := by
  have hexp := expandRuns_rleRuns values.length values (by omega)
  have hsum : ((rleRuns values).map Prod.fst).sum = values.length := by
    rw [← expandRuns_length, hexp]
  intro r hr
  constructor
  · have h1 : r.1 ∈ (rleRuns values).map Prod.fst := List.mem_map_of_mem _ hr
    have h2 := single_le_sum_nat _ _ h1
    omega
  · have hpos := rleRuns_pos values.length values (by omega) r hr
    have hmem : r.2 ∈ expandRuns (rleRuns values) := mem_expandRuns _ r hr hpos
    rw [hexp] at hmem
    exact hv _ hmem

/-- Round trip of the RLE codec on nonempty inputs. -/
theorem decodeRLE_encodeRLE {w maxB : Nat}
    (h7 : 7 * (maxB - 1) < w) (hwb : w ≤ 7 * maxB) :
    ∀ (values : List Nat) (num_values : Nat), values ≠ [] →
      (∀ v ∈ values, v < 2 ^ w) → values.length < 2 ^ 32 →
      decodeRLE w maxB (encodeRLE w values) num_values = .ok values := by
  intro values num_values hne hv hlen
  match values with
  | [] => exact absurd rfl hne
  | v :: rest =>
    have hexp := expandRuns_rleRuns (v :: rest).length (v :: rest) (by omega)
    have hsum : ((rleRuns (v :: rest)).map Prod.fst).sum = (v :: rest).length := by
      rw [← expandRuns_length, hexp]
    have hpos := rleRuns_pos (v :: rest).length (v :: rest) (by omega)
    have hrlen : (rleRuns (v :: rest)).length < 2 ^ 32 := by
      have := length_le_sum_of_pos (rleRuns (v :: rest)) hpos
      omega
    have hbounds := rleRuns_bounds (w := w) (v :: rest) hv hlen
    unfold encodeRLE decodeRLE
    rw [Nat.mod_eq_of_lt hrlen]
    rw [show varintBytes (rleRuns (v :: rest)).length ++ serializeRuns w (rleRuns (v :: rest))
          = varintBytes (rleRuns (v :: rest)).length ++
              (serializeRuns w (rleRuns (v :: rest)) ++ []) from by simp]
    rw [decodeVarint_varintBytes (by omega) (by omega) _ _ hrlen]
    dsimp only
    rw [List.drop_left]
    rw [rleDecodeLoop_serializeRuns h7 hwb _ [] [] hbounds]
    rw [hexp]
    rfl

/-- Round trip of `RLEEncoder::decodeInt32` over `encodeInt32` on
nonempty inputs. -/
theorem decodeInt32_encodeInt32 (values : List Nat) (num_values : Nat)
    (hne : values ≠ []) (hv : ∀ v ∈ values, v < 2 ^ 32)
    (hlen : values.length < 2 ^ 32) :
    decodeInt32 (encodeInt32 values) num_values = .ok values :=
  decodeRLE_encodeRLE (by omega) (by omega) values num_values hne hv hlen

/-- Round trip of `RLEEncoder::decodeInt64` over `encodeInt64` on
nonempty inputs. -/
theorem decodeInt64_encodeInt64 (values : List Nat) (num_values : Nat)
    (hne : values ≠ []) (hv : ∀ v ∈ values, v < 2 ^ 64)
    (hlen : values.length < 2 ^ 32) :
    decodeInt64 (encodeInt64 values) num_values = .ok values :=
  decodeRLE_encodeRLE (by omega) (by omega) values num_values hne hv hlen

/-- Appending extra bytes after a buffer on which the decode loop
succeeds does not change the result. -/
theorem rleDecodeLoop_append {w maxB : Nat} (extra : List Nat) :
    ∀ (count : Nat) (data acc res : List Nat),
      rleDecodeLoop w maxB count data acc = .ok res →
      rleDecodeLoop w maxB count (data ++ extra) acc = .ok res := by
  intro count
  induction count with
  | zero =>
    intro data acc res h
    exact h
  | succ k ih =>
    intro data acc res h
    rw [rleDecodeLoop] at h ⊢
    cases h1 : VarintCodec.decodeVarintAux 32 5 data 0 0 0 with
    | error e =>
      rw [h1] at h
      exact absurd h (by simp)
    | ok p1 =>
      obtain ⟨rl, b1⟩ := p1
      rw [h1] at h
      dsimp only at h
      rw [decodeVarintAux_append 32 5 extra data 0 0 0 rl b1 h1]
      dsimp only
      have hb1 : b1 ≤ data.length := by
        have := decodeVarintAux_consumed 32 5 data 0 0 0 rl b1 h1
        omega
      rw [List.drop_append_of_le_length hb1]
      cases h2 : VarintCodec.decodeVarintAux w maxB (data.drop b1) 0 0 0 with
      | error e =>
        rw [h2] at h
        exact absurd h (by simp)
      | ok p2 =>
        obtain ⟨enc, b2⟩ := p2
        rw [h2] at h
        dsimp only at h
        rw [decodeVarintAux_append w maxB extra _ 0 0 0 enc b2 h2]
        dsimp only
        have hb2 : b2 ≤ (data.drop b1).length := by
          have := decodeVarintAux_consumed w maxB (data.drop b1) 0 0 0 enc b2 h2
          omega
        have hb12 : b1 + b2 ≤ data.length := by
          simp only [List.length_drop] at hb2
          omega
        rw [List.drop_append_of_le_length hb12]
        exact ih _ _ _ h

/-- The decode loop is the parse loop followed by run expansion. -/
theorem rleDecodeLoop_eq_parse {w maxB : Nat} :
    ∀ (count : Nat) (data acc : List Nat),
      rleDecodeLoop w maxB count data acc
        = (rleParseRuns w maxB count data).map (fun rs => acc ++ expandRuns rs) := by
  intro count
  induction count with
  | zero =>
    intro data acc
    simp [rleDecodeLoop, rleParseRuns, expandRuns, Except.map]
  | succ k ih =>
    intro data acc
    rw [rleDecodeLoop, rleParseRuns]
    cases h1 : VarintCodec.decodeVarintAux 32 5 data 0 0 0 with
    | error e => rfl
    | ok p1 =>
      obtain ⟨rl, b1⟩ := p1
      dsimp only
      cases h2 : VarintCodec.decodeVarintAux w maxB (data.drop b1) 0 0 0 with
      | error e => rfl
      | ok p2 =>
        obtain ⟨enc, b2⟩ := p2
        dsimp only
        rw [ih]
        cases h3 : rleParseRuns w maxB k (data.drop (b1 + b2)) with
        | error e => rfl
        | ok rs =>
          dsimp only [Except.map]
          simp [expandRuns]

end RLEEncoder

/-! ### Little-endian fixed-width reads and writes -/

/-- The little-endian byte image of a `nbytes`-byte value, as written
by the `memcpy`-style inserts in `DeltaEncoder::encodeInt32/64` and
`DictionaryEncoder::encode`. -/
def leBytes : Nat → Nat → List Nat
  | 0, _ => []
  | k + 1, u => u % 0x100 :: leBytes k (u / 0x100)

/-- A `memcpy` of `nbytes` bytes out of the buffer.  Reading past the
end of the buffer is undefined behaviour in the C++ source and is
modelled by the `outOfBoundsRead` error. -/
def readLEValue : Nat → List Nat → Except DecodeError Nat
  | 0, _ => .ok 0
  | _ + 1, [] => .error .outOfBoundsRead
  | k + 1, b :: rest => (readLEValue k rest).map (fun v => b + v * 0x100)

theorem leBytes_length : ∀ k u, (leBytes k u).length = k := by
  intro k
  induction k with
  | zero => intro u; rfl
  | succ m ih => intro u; simp [leBytes, ih]

theorem readLEValue_leBytes :
    ∀ (k u : Nat) (rest : List Nat), u < 2 ^ (8 * k) →
      readLEValue k (leBytes k u ++ rest) = .ok u := by
  intro k
  induction k with
  | zero =>
    intro u rest hu
    simp at hu
    simp [leBytes, readLEValue, hu]
  | succ m ih =>
    intro u rest hu
    have hd : u / 0x100 < 2 ^ (8 * m) := by
      rw [Nat.div_lt_iff_lt_mul (by omega : 0 < 0x100)]
      calc u < 2 ^ (8 * (m + 1)) := hu
        _ = 2 ^ (8 * m) * 0x100 := by
            rw [show 8 * (m + 1) = 8 * m + 8 by omega, Nat.pow_add]
    simp only [leBytes, List.cons_append, readLEValue, List.append_eq]
    rw [ih (u / 0x100) rest hd]
    simp only [Except.map]
    congr 1
    omega

/-- Wrapping subtraction then wrapping addition is the identity. -/
theorem wrap_sub_add {P a b : Nat} (ha : a < P) (hb : b < P) :
    (a + (b + P - a) % P) % P = b := by
  rcases le_or_lt a b with hab | hab
  · have h1 : b + P - a = (b - a) + P := by omega
    rw [h1, Nat.add_mod_right, Nat.mod_eq_of_lt (by omega : b - a < P)]
    rw [show a + (b - a) = b by omega, Nat.mod_eq_of_lt hb]
  · have h1 : b + P - a < P := by omega
    rw [Nat.mod_eq_of_lt h1, show a + (b + P - a) = b + P by omega, Nat.add_mod_right,
      Nat.mod_eq_of_lt hb]

/-! ### Delta encoder (`DeltaEncoder` in src/encoding.cpp) -/

namespace DeltaEncoder

/-- The delta-emitting loop of `DeltaEncoder::encodeInt32/64`:
`delta = values[i] - prev` in wrapping `w`-bit arithmetic, zigzag
encoded. -/
def deltaBody (w : Nat) : List Nat → List Nat
  | [] => []
  | [_] => []
  | a :: b :: rest =>
    varintBytes (zigzagEncode w ((b + 2 ^ w - a) % 2 ^ w)) ++ deltaBody w (b :: rest)

/-- Shared body of `DeltaEncoder::encodeInt32` (`w = 32`, 4-byte base)
and `encodeInt64` (`w = 64`, 8-byte base): raw little-endian base,
`varint num_deltas` (cast to `uint32`), then the zigzag deltas. -/
def encodeDelta (w nbytes : Nat) (values : List Nat) : List Nat :=
  match values with
  | [] => []
  | base :: _ =>
    leBytes nbytes base ++ varintBytes ((values.length - 1) % 2 ^ 32) ++
      deltaBody w values

/-- `DeltaEncoder::encodeInt32`. -/
def encodeInt32 (values : List Nat) : List Nat := encodeDelta 32 4 values

/-- `DeltaEncoder::encodeInt64`. -/
def encodeInt64 (values : List Nat) : List Nat := encodeDelta 64 8 values

/-- The delta-accumulating decode loop: decode a zigzag delta, add it
to `current` in wrapping `w`-bit arithmetic, append. -/
def deltaDecodeLoop (w maxB : Nat) :
    Nat → List Nat → Nat → List Nat → Except DecodeError (List Nat)
  | 0, _, _, acc => .ok acc
  | count + 1, data, current, acc =>
    match VarintCodec.decodeVarintAux w maxB data 0 0 0 with
    | .error e => .error e
    | .ok (enc, b) =>
      deltaDecodeLoop w maxB count (data.drop b)
        ((current + zigzagDecode w enc) % 2 ^ w)
        (acc ++ [(current + zigzagDecode w enc) % 2 ^ w])

/-- Shared body of `DeltaEncoder::decodeInt32` (`w = 32`, `maxB = 5`,
4-byte base) and `decodeInt64` (`w = 64`, `maxB = 10`, 8-byte base):
`num_values == 0` returns the empty list at once; otherwise the base is
`memcpy`d without any size check (out of bounds on short buffers), then
`varint num_deltas`, then the delta loop. -/
def decodeDelta (w maxB nbytes : Nat) (data : List Nat) (num_values : Nat) :
    Except DecodeError (List Nat) :=
  if num_values = 0 then .ok []
  else
    match readLEValue nbytes data with
    | .error e => .error e
    | .ok base =>
      match VarintCodec.decodeVarintAux 32 5 (data.drop nbytes) 0 0 0 with
      | .error e => .error e
      | .ok (num_deltas, b) =>
        deltaDecodeLoop w maxB num_deltas (data.drop (nbytes + b)) base [base]

/-- `DeltaEncoder::decodeInt32`. -/
def decodeInt32 (data : List Nat) (num_values : Nat) : Except DecodeError (List Nat) :=
  decodeDelta 32 5 4 data num_values

/-- `DeltaEncoder::decodeInt64`. -/
def decodeInt64 (data : List Nat) (num_values : Nat) : Except DecodeError (List Nat) :=
  decodeDelta 64 10 8 data num_values

/-- The decode loop inverts the emit loop. -/
theorem deltaDecodeLoop_deltaBody {w maxB : Nat}
    (h7 : 7 * (maxB - 1) < w) (hwb : w ≤ 7 * maxB) :
    ∀ (vs : List Nat) (prev : Nat) (acc rest : List Nat),
      prev < 2 ^ w → (∀ v ∈ vs, v < 2 ^ w) →
      deltaDecodeLoop w maxB vs.length (deltaBody w (prev :: vs) ++ rest) prev acc
        = .ok (acc ++ vs) := by
  intro vs
  induction vs with
  | nil =>
    intro prev acc rest _ _
    simp [deltaBody, deltaDecodeLoop]
  | cons b tl ih =>
    intro prev acc rest hprev hvs
    have hw1 : 1 ≤ w := by omega
    have hpos : 0 < 2 ^ w := Nat.pos_pow_of_pos _ (by omega)
    have hb : b < 2 ^ w := hvs b (by simp)
    simp only [deltaBody, List.length_cons, deltaDecodeLoop, List.append_assoc]
    rw [decodeVarint_varintBytes h7 hwb _ _ (zigzagEncode_lt w _)]
    dsimp only
    rw [List.drop_left]
    rw [zigzagDecode_zigzagEncode hw1 (Nat.mod_lt _ hpos)]
    rw [wrap_sub_add hprev hb]
    rw [ih b (acc ++ [b]) rest hb (fun v hv => hvs v (List.mem_cons_of_mem _ hv))]
    simp

/-- Round trip of the delta codec, the empty input included. -/
theorem decodeDelta_encodeDelta {w maxB nbytes : Nat}
    (h7 : 7 * (maxB - 1) < w) (hwb : w ≤ 7 * maxB) (hn : 8 * nbytes = w) :
    ∀ values : List Nat, (∀ v ∈ values, v < 2 ^ w) → values.length < 2 ^ 32 →
      decodeDelta w maxB nbytes (encodeDelta w nbytes values) values.length
        = .ok values := by
  intro values hv hlen
  match values with
  | [] => rfl
  | base :: rest =>
    have hbase : base < 2 ^ (8 * nbytes) := by
      rw [hn]
      exact hv base (by simp)
    simp only [List.length_cons] at hlen
    have hrl : rest.length < 2 ^ 32 := by omega
    simp only [encodeDelta, decodeDelta, List.length_cons, Nat.add_sub_cancel]
    rw [if_neg (by omega)]
    rw [List.append_assoc]
    rw [readLEValue_leBytes nbytes base _ hbase]
    dsimp only
    rw [List.drop_left' (leBytes_length nbytes base)]
    rw [Nat.mod_eq_of_lt hrl]
    rw [decodeVarint_varintBytes (by omega) (by omega) rest.length _ hrl]
    dsimp only
    rw [← List.drop_drop]
    rw [List.drop_left' (leBytes_length nbytes base)]
    rw [List.drop_left]
    rw [show deltaBody w (base :: rest) = deltaBody w (base :: rest) ++ [] by simp]
    rw [deltaDecodeLoop_deltaBody h7 hwb rest base [base] [] (hv base (by simp))
      (fun v hv2 => hv v (List.mem_cons_of_mem _ hv2))]
    simp

end DeltaEncoder

/-! ### Dictionary encoder (`DictionaryEncoder` in src/encoding.cpp).
Strings are byte sequences, modelled as `List Nat`. -/

namespace DictionaryEncoder

/-- Lookup in the value→index map `dict_`: the index assigned at
first insertion equals the value's position in `dict_values_`. -/
def dictLookup (dict : List (List Nat)) (v : List Nat) : Option Nat :=
  match dict with
  | [] => none
  | h :: t => if h = v then some 0 else (dictLookup t v).map (· + 1)

/-- The build phase of `DictionaryEncoder::encode`: walk the values,
assigning the next index `dict_values_.size()` to each string not yet
in the map.  Returns `(dict_values_, indices)`. -/
def buildDict : List (List Nat) → List (List Nat) → List (List Nat) × List Nat
  | [], dict => (dict, [])
  | v :: rest, dict =>
    match dictLookup dict v with
    | some idx =>
      ((buildDict rest dict).1, idx :: (buildDict rest dict).2)
    | none =>
      ((buildDict rest (dict ++ [v])).1, dict.length :: (buildDict rest (dict ++ [v])).2)

/-- Serialization of the dictionary entries: `u32 length` then the raw
bytes, per entry. -/
def serializeDict : List (List Nat) → List Nat
  | [] => []
  | s :: ss => leBytes 4 (s.length % 2 ^ 32) ++ s ++ serializeDict ss

/-- `DictionaryEncoder::encode`: `u32 dict_size`, the entries, then the
indices RLE-encoded as `int32` (the `uint32` index patterns are kept
bit-for-bit by the cast). -/
def encode (values : List (List Nat)) : List Nat :=
  leBytes 4 ((buildDict values []).1.length % 2 ^ 32) ++
    serializeDict (buildDict values []).1 ++
    RLEEncoder.encodeInt32 ((buildDict values []).2.map (· % 2 ^ 32))

/-- The dictionary-reading loop of `DictionaryEncoder::decode`:
`memcpy` a `u32 len`, then take `len` bytes as the entry
(`std::string(ptr, len)` reads out of bounds if fewer remain). -/
def readDictEntries : Nat → List Nat → Except DecodeError (List (List Nat) × List Nat)
  | 0, data => .ok ([], data)
  | k + 1, data =>
    match readLEValue 4 data with
    | .error e => .error e
    | .ok len =>
      if (data.drop 4).length < len then .error .outOfBoundsRead
      else
        (readDictEntries k ((data.drop 4).drop len)).map
          (fun r => ((data.drop 4).take len :: r.1, r.2))

/-- The index-mapping loop of `DictionaryEncoder::decode`: each decoded
`int32` index pattern is checked with
`idx < 0 || idx >= (int32_t) dictionary.size()` (a signed comparison)
and then looked up. -/
def mapIndices (dictionary : List (List Nat)) : List Nat → Except DecodeError (List (List Nat))
  | [] => .ok []
  | idx :: rest =>
    if toSigned 32 idx < 0 ∨ toSigned 32 (dictionary.length % 2 ^ 32) ≤ toSigned 32 idx
    then .error .invalidDictIndex
    else (mapIndices dictionary rest).map (fun l => dictionary.getD idx [] :: l)

/-- `DictionaryEncoder::decode`: read `u32 dict_size`, the entries,
RLE-decode the indices from the remainder, then map them through the
dictionary. -/
def decode (data : List Nat) (num_values : Nat) : Except DecodeError (List (List Nat)) :=
  match readLEValue 4 data with
  | .error e => .error e
  | .ok dict_size =>
    match readDictEntries dict_size (data.drop 4) with
    | .error e => .error e
    | .ok r =>
      match RLEEncoder.decodeInt32 r.2 num_values with
      | .error e => .error e
      | .ok indices => mapIndices r.1 indices

/-- Modelled from the spec: first-seen order assigns indices `0..k-1`
into a dictionary of distinct strings (spec §4.4); stated as a fold
that appends each string on its first appearance.  Used only to compare
the build phase against the spec's words. -/
def firstSeen (values : List (List Nat)) : List (List Nat) :=
  values.foldl (fun acc v => if v ∈ acc then acc else acc ++ [v]) []

end DictionaryEncoder

example : DictionaryEncoder.encode [[65], [66], [65]]
    = [2, 0, 0, 0, 1, 0, 0, 0, 65, 1, 0, 0, 0, 66, 3, 1, 0, 1, 2, 1, 0] := by decide
example : DictionaryEncoder.decode
    [2, 0, 0, 0, 1, 0, 0, 0, 65, 1, 0, 0, 0, 66, 3, 1, 0, 1, 2, 1, 0] 3
    = .ok [[65], [66], [65]] := by decide
example : DictionaryEncoder.decode (DictionaryEncoder.encode []) 0
    = .error .truncated := by decide

/-! ### Dictionary lemmas -/

namespace DictionaryEncoder

theorem dictLookup_some :
    ∀ (d : List (List Nat)) (v : List Nat) (i : Nat),
      dictLookup d v = some i → i < d.length ∧ d.getD i [] = v := by
  intro d
  induction d with
  | nil => intro v i h; simp [dictLookup] at h
  | cons h t ih =>
    intro v i hl
    rw [dictLookup] at hl
    by_cases he : h = v
    · rw [if_pos he] at hl
      have : i = 0 := by
        have := Option.some.inj hl
        omega
      subst this
      simp [he]
    · rw [if_neg he] at hl
      cases hj : dictLookup t v with
      | none => rw [hj] at hl; simp at hl
      | some j =>
        rw [hj] at hl
        simp only [Option.map] at hl
        have hij : i = j + 1 := (Option.some.inj hl).symm
        subst hij
        have := ih v j hj
        constructor
        · simp only [List.length_cons]
          omega
        · simpa using this.2

theorem dictLookup_none :
    ∀ (d : List (List Nat)) (v : List Nat), dictLookup d v = none ↔ v ∉ d := by
  intro d
  induction d with
  | nil => intro v; simp [dictLookup]
  | cons h t ih =>
    intro v
    rw [dictLookup]
    by_cases he : h = v
    · rw [if_pos he]
      simp [he]
    · rw [if_neg he]
      constructor
      · intro hn hc
        rcases List.mem_cons.mp hc with hc | hc
        · exact he hc.symm
        · have := (ih v).mp (by
            cases hj : dictLookup t v with
            | none => rfl
            | some j => rw [hj] at hn; simp at hn)
          exact this hc
      · intro hn
        have hv : v ∉ t := fun hc => hn (List.mem_cons_of_mem _ hc)
        rw [(ih v).mpr hv]
        rfl

theorem getD_mem_of_lt {l : List (List Nat)} {n : Nat} (h : n < l.length) :
    l.getD n [] ∈ l := by
  rw [List.getD_eq_getElem?_getD, List.getElem?_eq_getElem h]
  exact List.getElem_mem h

theorem buildDict_fst_prefix :
    ∀ (V : List (List Nat)) (d : List (List Nat)),
      ∃ ext, (buildDict V d).1 = d ++ ext := by
  intro V
  induction V with
  | nil => intro d; exact ⟨[], by simp [buildDict]⟩
  | cons v rest ih =>
    intro d
    rw [buildDict]
    cases hl : dictLookup d v with
    | some idx => exact ih d
    | none =>
      obtain ⟨ext, hext⟩ := ih (d ++ [v])
      exact ⟨[v] ++ ext, by rw [hext, List.append_assoc]⟩

theorem buildDict_forall2 :
    ∀ (V : List (List Nat)) (d : List (List Nat)),
      List.Forall₂
        (fun idx v => idx < (buildDict V d).1.length ∧ (buildDict V d).1.getD idx [] = v)
        (buildDict V d).2 V := by
  intro V
  induction V with
  | nil => intro d; exact List.Forall₂.nil
  | cons v rest ih =>
    intro d
    rw [buildDict]
    cases hl : dictLookup d v with
    | some idx =>
      dsimp only
      refine List.Forall₂.cons ?_ (ih d)
      obtain ⟨hlt, hget⟩ := dictLookup_some d v idx hl
      obtain ⟨ext, hext⟩ := buildDict_fst_prefix rest d
      rw [hext]
      constructor
      · simp only [List.length_append]
        omega
      · rw [List.getD_append _ _ _ _ hlt]
        exact hget
    | none =>
      dsimp only
      refine List.Forall₂.cons ?_ (ih (d ++ [v]))
      obtain ⟨ext, hext⟩ := buildDict_fst_prefix rest (d ++ [v])
      rw [hext]
      constructor
      · simp only [List.length_append, List.length_cons]
        omega
      · rw [List.append_assoc]
        rw [List.getD_append_right _ _ _ _ (Nat.le_refl _)]
        simp

theorem forall2_left_prop {α β : Type} {R : α → β → Prop} :
    ∀ {xs : List α} {ys : List β}, List.Forall₂ R xs ys →
      ∀ x ∈ xs, ∃ y, R x y := by
  intro xs ys h
  induction h with
  | nil => simp
  | cons hr _ ih =>
    intro x hx
    rcases List.mem_cons.mp hx with hx | hx
    · subst hx
      exact ⟨_, hr⟩
    · exact ih x hx

theorem buildDict_snd_lt :
    ∀ (V : List (List Nat)) (d : List (List Nat)),
      ∀ i ∈ (buildDict V d).2, i < (buildDict V d).1.length := by
  intro V d i hi
  obtain ⟨y, hy⟩ := forall2_left_prop (buildDict_forall2 V d) i hi
  exact hy.1

theorem buildDict_snd_length :
    ∀ (V : List (List Nat)) (d : List (List Nat)),
      (buildDict V d).2.length = V.length :=
  fun V d => (buildDict_forall2 V d).length_eq

theorem buildDict_length_le :
    ∀ (V : List (List Nat)) (d : List (List Nat)),
      (buildDict V d).1.length ≤ d.length + V.length := by
  intro V
  induction V with
  | nil => intro d; simp [buildDict]
  | cons v rest ih =>
    intro d
    rw [buildDict]
    cases hl : dictLookup d v with
    | some idx =>
      dsimp only
      have := ih d
      simp only [List.length_cons]
      omega
    | none =>
      dsimp only
      have := ih (d ++ [v])
      simp only [List.length_append, List.length_cons, List.length_nil] at this ⊢
      omega

theorem buildDict_mem :
    ∀ (V : List (List Nat)) (d : List (List Nat)) (s : List Nat),
      s ∈ (buildDict V d).1 → s ∈ d ∨ s ∈ V := by
  intro V
  induction V with
  | nil =>
    intro d s hs
    rw [buildDict] at hs
    exact Or.inl hs
  | cons v rest ih =>
    intro d s hs
    rw [buildDict] at hs
    cases hl : dictLookup d v with
    | some idx =>
      rw [hl] at hs
      dsimp only at hs
      rcases ih d s hs with hs | hs
      · exact Or.inl hs
      · exact Or.inr (List.mem_cons_of_mem _ hs)
    | none =>
      rw [hl] at hs
      dsimp only at hs
      rcases ih (d ++ [v]) s hs with hs | hs
      · rcases List.mem_append.mp hs with hs | hs
        · exact Or.inl hs
        · simp at hs
          exact Or.inr (by simp [hs])
      · exact Or.inr (List.mem_cons_of_mem _ hs)

/-- The build phase matches the spec's first-seen fold. -/
theorem buildDict_fst_eq_foldl :
    ∀ (V : List (List Nat)) (d : List (List Nat)),
      (buildDict V d).1
        = V.foldl (fun acc v => if v ∈ acc then acc else acc ++ [v]) d := by
  intro V
  induction V with
  | nil => intro d; rfl
  | cons v rest ih =>
    intro d
    rw [buildDict, List.foldl_cons]
    cases hl : dictLookup d v with
    | some idx =>
      have hmem : v ∈ d := by
        obtain ⟨hlt, hget⟩ := dictLookup_some d v idx hl
        rw [← hget]
        exact getD_mem_of_lt hlt
      rw [if_pos hmem]
      exact ih d
    | none =>
      have hmem : v ∉ d := (dictLookup_none d v).mp hl
      rw [if_neg hmem]
      exact ih (d ++ [v])

theorem map_eq_of_forall2 {α β : Type} (f : α → β) :
    ∀ {l1 : List α} {l2 : List β},
      List.Forall₂ (fun a b => f a = b) l1 l2 → l1.map f = l2 := by
  intro l1 l2 h
  induction h with
  | nil => rfl
  | cons hr _ ih => simp [ih, hr]

theorem readDictEntries_serializeDict :
    ∀ (dict : List (List Nat)) (rest : List Nat),
      (∀ s ∈ dict, s.length < 2 ^ 32) →
      readDictEntries dict.length (serializeDict dict ++ rest) = .ok (dict, rest) := by
  intro dict
  induction dict with
  | nil => intro rest _; rfl
  | cons s ss ih =>
    intro rest hs
    have hslen : s.length < 2 ^ 32 := hs s (by simp)
    simp only [serializeDict, List.length_cons, readDictEntries, List.append_assoc]
    rw [readLEValue_leBytes 4 _ _ (by
      rw [Nat.mod_eq_of_lt hslen]
      exact hslen)]
    dsimp only
    rw [List.drop_left' (leBytes_length 4 _)]
    rw [Nat.mod_eq_of_lt hslen]
    rw [if_neg (by
      simp only [List.length_append]
      omega)]
    rw [List.take_left, List.drop_left]
    rw [ih rest (fun q hq => hs q (List.mem_cons_of_mem _ hq))]
    rfl

theorem mapIndices_ok :
    ∀ (idxs : List Nat) (dict : List (List Nat)),
      dict.length < 2 ^ 31 → (∀ i ∈ idxs, i < dict.length) →
      mapIndices dict idxs = .ok (idxs.map (fun i => dict.getD i [])) := by
  intro idxs dict hdict hlt
  induction idxs with
  | nil => rfl
  | cons idx rest ih =>
    have hi : idx < dict.length := hlt idx (by simp)
    rw [mapIndices]
    rw [if_neg (by
      unfold toSigned
      rw [Nat.mod_eq_of_lt (by omega : dict.length < 2 ^ 32)]
      rw [if_pos (by omega : idx < 2 ^ (32 - 1))]
      rw [if_pos (by omega : dict.length < 2 ^ (32 - 1))]
      push_neg
      constructor
      · exact Int.ofNat_nonneg idx
      · exact Int.ofNat_lt.mpr hi)]
    rw [ih (fun q hq => hlt q (List.mem_cons_of_mem _ hq))]
    rfl

theorem mapIndices_invalid_iff :
    ∀ (idxs : List Nat) (dict : List (List Nat)),
      dict.length < 2 ^ 31 → (∀ i ∈ idxs, i < 2 ^ 32) →
      (mapIndices dict idxs = .error .invalidDictIndex ↔ ∃ i ∈ idxs, dict.length ≤ i) := by
  intro idxs dict hdict
  induction idxs with
  | nil =>
    intro _
    simp [mapIndices]
  | cons idx rest ih =>
    intro hlt
    have hi : idx < 2 ^ 32 := hlt idx (by simp)
    have hbad : (toSigned 32 idx < 0 ∨
        toSigned 32 (dict.length % 2 ^ 32) ≤ toSigned 32 idx) ↔ dict.length ≤ idx := by
      unfold toSigned
      rw [Nat.mod_eq_of_lt (by omega : dict.length < 2 ^ 32)]
      rw [if_pos (by omega : dict.length < 2 ^ (32 - 1))]
      by_cases hc : idx < 2 ^ (32 - 1)
      · rw [if_pos hc]
        simp only [Nat.pow_succ] at hc hdict ⊢
        omega
      · rw [if_neg hc]
        simp only [Nat.pow_succ] at hc hdict ⊢
        constructor
        · intro _
          omega
        · intro _
          left
          omega
    rw [mapIndices]
    by_cases hb : dict.length ≤ idx
    · rw [if_pos (hbad.mpr hb)]
      simp only [true_iff]
      exact ⟨idx, by simp, hb⟩
    · rw [if_neg (fun hc => hb (hbad.mp hc))]
      have ihr := ih (fun q hq => hlt q (List.mem_cons_of_mem _ hq))
      cases hm : mapIndices dict rest with
      | error e =>
        rw [hm] at ihr
        simp only [Except.map]
        constructor
        · intro he
          have he2 : e = DecodeError.invalidDictIndex := by
            have := Except.error.inj he
            exact this
          obtain ⟨i, hi1, hi2⟩ := ihr.mp (by rw [he2])
          exact ⟨i, List.mem_cons_of_mem _ hi1, hi2⟩
        · intro ⟨i, hi1, hi2⟩
          rcases List.mem_cons.mp hi1 with hieq | hir
          · subst hieq
            omega
          · have := ihr.mpr ⟨i, hir, hi2⟩
            rw [this]
      | ok l =>
        rw [hm] at ihr
        simp only [Except.map]
        constructor
        · intro he
          simp at he
        · intro ⟨i, hi1, hi2⟩
          rcases List.mem_cons.mp hi1 with hieq | hir
          · subst hieq
            omega
          · have := ihr.mpr ⟨i, hir, hi2⟩
            simp at this

end DictionaryEncoder

namespace DictionaryEncoder

/-- Round trip of the dictionary codec on nonempty inputs. -/
theorem decode_encode :
    ∀ V : List (List Nat), V ≠ [] → (∀ s ∈ V, s.length < 2 ^ 32) →
      V.length < 2 ^ 31 →
      decode (encode V) V.length = .ok V := by
  intro V hne hs hlen
  have hdlen : (buildDict V []).1.length < 2 ^ 31 := by
    have := buildDict_length_le V []
    simp only [List.length_nil] at this
    omega
  have hdlen32 : (buildDict V []).1.length < 2 ^ 32 := by
    have : (2 : Nat) ^ 31 < 2 ^ 32 := by norm_num
    omega
  have hdmem : ∀ s ∈ (buildDict V []).1, s.length < 2 ^ 32 := by
    intro s hsd
    rcases buildDict_mem V [] s hsd with h | h
    · simp at h
    · exact hs s h
  have hidx_lt : ∀ i ∈ (buildDict V []).2, i < (buildDict V []).1.length :=
    buildDict_snd_lt V []
  have hidx32 : ∀ i ∈ (buildDict V []).2, i < 2 ^ 32 := by
    intro i hi
    have := hidx_lt i hi
    omega
  have hmap_id : (buildDict V []).2.map (· % 2 ^ 32) = (buildDict V []).2 := by
    rw [List.map_congr_left (g := id) ?_, List.map_id]
    intro a ha
    exact Nat.mod_eq_of_lt (hidx32 a ha)
  have hidxs_len : (buildDict V []).2.length = V.length := buildDict_snd_length V []
  have hidxs_ne : (buildDict V []).2 ≠ [] := by
    intro hc
    apply hne
    apply List.length_eq_zero.mp
    rw [← hidxs_len, hc]
    rfl
  unfold encode decode
  rw [List.append_assoc]
  rw [readLEValue_leBytes 4 _ _ (Nat.mod_lt _ (by norm_num))]
  dsimp only
  rw [List.drop_left' (leBytes_length 4 _)]
  rw [Nat.mod_eq_of_lt hdlen32]
  rw [readDictEntries_serializeDict _ _ hdmem]
  dsimp only
  rw [hmap_id]
  rw [RLEEncoder.decodeInt32_encodeInt32 _ V.length hidxs_ne hidx32 (by omega)]
  dsimp only
  rw [mapIndices_ok _ _ hdlen hidx_lt]
  congr 1
  exact map_eq_of_forall2 _ ((buildDict_forall2 V []).imp (fun a b h => h.2))

/-- `decode` factors through `mapIndices` once the three parse stages
succeed. -/
theorem decode_decompose :
    ∀ (data : List Nat) (n dict_size : Nat) (r : List (List Nat) × List Nat)
      (idxs : List Nat),
      readLEValue 4 data = .ok dict_size →
      readDictEntries dict_size (data.drop 4) = .ok r →
      RLEEncoder.decodeInt32 r.2 n = .ok idxs →
      decode data n = mapIndices r.1 idxs := by
  intro data n dict_size r idxs h1 h2 h3
  unfold decode
  rw [h1]
  dsimp only
  rw [h2]
  dsimp only
  rw [h3]

end DictionaryEncoder

/-! ### Predicate and page statistics (include/format.h, include/execution.h).
`PageStats` is declared in include/format.h (in the sources); the bodies of
`Predicate::evaluate` and `Predicate::canSkipPage` live in an execution
translation unit that is not among the sources, so they are modelled from
the spec (§4.8) and the expectations in tests/test_execution.cpp. -/

/-- `PageStats` from include/format.h: optional `int64` min/max and two
counters. -/
structure PageStats where
  min_int : Option Int
  max_int : Option Int
  null_count : Nat
  distinct_count_estimate : Nat
deriving DecidableEq, Repr

/-- `CompareOp` from include/execution.h. -/
inductive CompareOp where
  | EQ
  | NE
  | LT
  | LE
  | GT
  | GE
deriving DecidableEq, Repr

/-- `Predicate` from include/execution.h: a column name, an operator and
an `int64` literal. -/
structure Predicate where
  column : String
  op : CompareOp
  value : Int
deriving DecidableEq, Repr

/-- Modelled from the spec: `Predicate::evaluate` (its body is not among
the sources).  Per spec §4.8 evaluation is the scalar comparison
`col_value op value`; tests/test_execution.cpp pins `GT`:
`evaluate(200) == true`, `evaluate(150) == false` for `value > 150`. -/
def Predicate.evaluate (p : Predicate) (col_value : Int) : Bool :=
  match p.op with
  | .EQ => col_value = p.value
  | .NE => col_value ≠ p.value
  | .LT => col_value < p.value
  | .LE => col_value ≤ p.value
  | .GT => col_value > p.value
  | .GE => col_value ≥ p.value

/-- Modelled from the spec: `Predicate::canSkipPage` (its body is not
among the sources).  Per spec §4.8: true iff the page has both min and
max and no value in `[min, max]` could satisfy the predicate, with the
listed per-operator conditions; a page lacking stats must not be
skipped. -/
def Predicate.canSkipPage (p : Predicate) (stats : PageStats) : Bool :=
  match stats.min_int, stats.max_int with
  | some mn, some mx =>
    match p.op with
    | .GT => mx ≤ p.value
    | .GE => mx < p.value
    | .LT => mn ≥ p.value
    | .LE => mn > p.value
    | .EQ => p.value < mn ∨ p.value > mx
    | .NE => mn = mx ∧ mn = p.value
  | _, _ => false

example :
    Predicate.canSkipPage ⟨"value", .GT, 250⟩ ⟨some 100, some 200, 0, 0⟩ = true := by
  decide
example :
    Predicate.canSkipPage ⟨"value", .LT, 50⟩ ⟨some 100, some 200, 0, 0⟩ = true := by
  decide
example :
    Predicate.canSkipPage ⟨"value", .GT, 150⟩ ⟨some 100, some 200, 0, 0⟩ = false := by
  decide

namespace RLEEncoder

/-- Trailing bytes after a buffer on which RLE decode succeeds are
ignored. -/
theorem decodeRLE_append {w maxB : Nat} (data extra : List Nat) (n : Nat)
    (res : List Nat) (h : decodeRLE w maxB data n = .ok res) :
    decodeRLE w maxB (data ++ extra) n = .ok res := by
  unfold decodeRLE at h ⊢
  cases h1 : VarintCodec.decodeVarintAux 32 5 data 0 0 0 with
  | error e =>
    rw [h1] at h
    exact absurd h (by simp)
  | ok p =>
    obtain ⟨nr, b⟩ := p
    rw [h1] at h
    dsimp only at h
    rw [decodeVarintAux_append 32 5 extra data 0 0 0 nr b h1]
    dsimp only
    have hb : b ≤ data.length := by
      have := decodeVarintAux_consumed 32 5 data 0 0 0 nr b h1
      omega
    rw [List.drop_append_of_le_length hb]
    exact rleDecodeLoop_append extra nr (data.drop b) [] res h

/-- Every successful RLE decode is the expansion of the parsed runs. -/
theorem decodeRLE_ok_structure {w maxB : Nat} (data : List Nat) (n : Nat)
    (res : List Nat) (h : decodeRLE w maxB data n = .ok res) :
    ∃ nr b runs,
      VarintCodec.decodeVarintAux 32 5 data 0 0 0 = .ok (nr, b)
      ∧ rleParseRuns w maxB nr (data.drop b) = .ok runs
      ∧ res = expandRuns runs := by
  unfold decodeRLE at h
  cases h1 : VarintCodec.decodeVarintAux 32 5 data 0 0 0 with
  | error e =>
    rw [h1] at h
    exact absurd h (by simp)
  | ok p =>
    obtain ⟨nr, b⟩ := p
    rw [h1] at h
    dsimp only at h
    rw [rleDecodeLoop_eq_parse] at h
    cases h2 : rleParseRuns w maxB nr (data.drop b) with
    | error e =>
      rw [h2] at h
      exact absurd h (by simp [Except.map])
    | ok runs =>
      rw [h2] at h
      simp only [Except.map, List.nil_append] at h
      exact ⟨nr, b, runs, rfl, h2, (Except.ok.inj h).symm⟩

/-- A buffer holding a single run of length zero decodes to the empty
list (no error of any kind is raised). -/
theorem decodeRLE_zero_run {w maxB : Nat}
    (h7 : 7 * (maxB - 1) < w) (hwb : w ≤ 7 * maxB) (v n : Nat) :
    decodeRLE w maxB (1 :: 0 :: varintBytes (zigzagEncode w v)) n = .ok [] := by
  have hshape : (1 :: 0 :: varintBytes (zigzagEncode w v))
      = varintBytes 1 ++ (varintBytes 0 ++ (varintBytes (zigzagEncode w v) ++ [])) := by
    simp [varintBytes, varintBytesAux]
  rw [hshape]
  unfold decodeRLE
  rw [decodeVarint_varintBytes (by omega) (by omega) 1 _ (by norm_num)]
  dsimp only
  rw [List.drop_left]
  rw [show (1 : Nat) = 0 + 1 from rfl]
  rw [rleDecodeLoop]
  rw [decodeVarint_varintBytes (by omega) (by omega) 0 _ (by norm_num)]
  dsimp only
  rw [List.drop_left]
  rw [decodeVarint_varintBytes h7 hwb _ _ (zigzagEncode_lt w v)]
  dsimp only
  rw [rleDecodeLoop]
  simp

end RLEEncoder

/-- The skip test is exactly "no value of `[mn, mx]` can satisfy the
predicate" whenever the interval is nonempty. -/
theorem canSkipPage_iff (p : Predicate) (mn mx : Int) (nc dce : Nat)
    (hle : mn ≤ mx) :
    p.canSkipPage ⟨some mn, some mx, nc, dce⟩ = true
      ↔ ∀ v : Int, mn ≤ v → v ≤ mx → p.evaluate v = false := by
  cases hop : p.op with
  | GT =>
    simp only [Predicate.canSkipPage, Predicate.evaluate, hop, decide_eq_true_eq,
      decide_eq_false_iff_not]
    constructor
    · intro h v h1 h2
      omega
    · intro h
      have := h mx hle (le_refl mx)
      omega
  | GE =>
    simp only [Predicate.canSkipPage, Predicate.evaluate, hop, decide_eq_true_eq,
      decide_eq_false_iff_not]
    constructor
    · intro h v h1 h2
      omega
    · intro h
      have := h mx hle (le_refl mx)
      omega
  | LT =>
    simp only [Predicate.canSkipPage, Predicate.evaluate, hop, decide_eq_true_eq,
      decide_eq_false_iff_not]
    constructor
    · intro h v h1 h2
      omega
    · intro h
      have := h mn (le_refl mn) hle
      omega
  | LE =>
    simp only [Predicate.canSkipPage, Predicate.evaluate, hop, decide_eq_true_eq,
      decide_eq_false_iff_not]
    constructor
    · intro h v h1 h2
      omega
    · intro h
      have := h mn (le_refl mn) hle
      omega
  | EQ =>
    simp only [Predicate.canSkipPage, Predicate.evaluate, hop, decide_eq_true_eq,
      decide_eq_false_iff_not]
    constructor
    · intro h v h1 h2
      omega
    · intro h
      by_contra hc
      push_neg at hc
      have := h p.value (by omega) (by omega)
      omega
  | NE =>
    simp only [Predicate.canSkipPage, Predicate.evaluate, hop, decide_eq_true_eq,
      decide_eq_false_iff_not]
    constructor
    · intro h v h1 h2
      omega
    · intro h
      have h1 := h mn (le_refl mn) hle
      have h2 := h mx hle (le_refl mx)
      omega

/-- A page with a missing bound is never skipped. -/
theorem canSkipPage_none (p : Predicate) (stats : PageStats)
    (h : stats.min_int = none ∨ stats.max_int = none) :
    p.canSkipPage stats = false := by
  obtain ⟨mi, ma, nc, dce⟩ := stats
  simp only at h
  unfold Predicate.canSkipPage
  rcases h with h | h <;> subst h
  · rfl
  · cases mi <;> rfl

/-- Mapping over an `Except` preserves and reflects errors. -/
theorem exceptMap_error_iff {α β : Type} (f : α → β) (x : Except DecodeError α)
    (e : DecodeError) : x.map f = .error e ↔ x = .error e := by
  cases x <;> simp [Except.map]

/-! ### Claim theorems -/

/-- C1 (amended): for every nonempty vector of int32 (resp. int64) bit
patterns, `RLEEncoder::decodeInt32/64` applied to
`RLEEncoder::encodeInt32/64` with `num_values = |V|` returns exactly
`V`, and each encoded run is maximal (every run length is positive and
adjacent runs carry different values); the empty vector encodes to zero
bytes, but decoding the zero-byte buffer raises Truncated instead of
returning the empty vector (see the counterexample). -/
theorem C1_rle_roundtrip :
    (∀ V : List Nat, V ≠ [] → (∀ v ∈ V, v < 2 ^ 32) → V.length < 2 ^ 32 →
      RLEEncoder.decodeInt32 (RLEEncoder.encodeInt32 V) V.length = .ok V)
    ∧ (∀ V : List Nat, V ≠ [] → (∀ v ∈ V, v < 2 ^ 64) → V.length < 2 ^ 32 →
      RLEEncoder.decodeInt64 (RLEEncoder.encodeInt64 V) V.length = .ok V)
    ∧ RLEEncoder.encodeInt32 [] = [] ∧ RLEEncoder.encodeInt64 [] = []
    ∧ (∀ V : List Nat,
        List.Chain' (fun a b : Nat × Nat => a.2 ≠ b.2) (RLEEncoder.rleRuns V)
        ∧ ∀ r ∈ RLEEncoder.rleRuns V, 0 < r.1) := by
  refine ⟨?_, ?_, rfl, rfl, ?_⟩
  · intro V hne hv hlen
    exact RLEEncoder.decodeInt32_encodeInt32 V V.length hne hv hlen
  · intro V hne hv hlen
    exact RLEEncoder.decodeInt64_encodeInt64 V V.length hne hv hlen
  · intro V
    exact ⟨RLEEncoder.rleRuns_chain V.length V (Nat.le_refl _),
      RLEEncoder.rleRuns_pos V.length V (Nat.le_refl _)⟩

/-- C1 witness: a concrete round trip through the first conjunct. -/
theorem C1_rle_roundtrip_witness :
    RLEEncoder.decodeInt32 (RLEEncoder.encodeInt32 [5, 5, 3]) 3 = .ok [5, 5, 3] :=
  C1_rle_roundtrip.1 [5, 5, 3] (by decide) (by decide) (by decide)

/-- C1 counterexample: the empty vector encodes to zero bytes, but the
decoder raises Truncated on the zero-byte buffer (the leading
`num_runs` varint read finds an empty buffer), so
`decode(encode([])) ≠ []` as the claim states. -/
theorem C1_rle_counterexample :
    RLEEncoder.encodeInt32 [] = []
    ∧ RLEEncoder.decodeInt32 (RLEEncoder.encodeInt32 []) 0 = .error .truncated
    ∧ RLEEncoder.encodeInt64 [] = []
    ∧ RLEEncoder.decodeInt64 (RLEEncoder.encodeInt64 []) 0 = .error .truncated := by
  refine ⟨rfl, by decide, rfl, by decide⟩

/-- C2: the delta codec round-trips every vector of int32 (resp. int64)
bit patterns, the empty vector included; deltas are formed and
re-accumulated with wrapping subtraction/addition modulo `2^32`
(resp. `2^64`), so the round trip holds also when adjacent values
differ by more than the value width. -/
theorem C2_delta_roundtrip :
    (∀ V : List Nat, (∀ v ∈ V, v < 2 ^ 32) → V.length < 2 ^ 32 →
      DeltaEncoder.decodeInt32 (DeltaEncoder.encodeInt32 V) V.length = .ok V)
    ∧ (∀ V : List Nat, (∀ v ∈ V, v < 2 ^ 64) → V.length < 2 ^ 32 →
      DeltaEncoder.decodeInt64 (DeltaEncoder.encodeInt64 V) V.length = .ok V) := by
  constructor
  · intro V hv hlen
    exact DeltaEncoder.decodeDelta_encodeDelta (by norm_num) (by norm_num)
      (by norm_num) V hv hlen
  · intro V hv hlen
    exact DeltaEncoder.decodeDelta_encodeDelta (by norm_num) (by norm_num)
      (by norm_num) V hv hlen

/-- C2 witness: a round trip in which the int32 delta wraps: the step
from the pattern of `INT32_MAX` to the pattern of `INT32_MIN` is `+1`
after wrapping. -/
theorem C2_delta_roundtrip_witness :
    DeltaEncoder.decodeInt32 (DeltaEncoder.encodeInt32 [2147483647, 2147483648]) 2
      = .ok [2147483647, 2147483648] :=
  C2_delta_roundtrip.1 [2147483647, 2147483648] (by decide) (by decide)

/-- C3 (amended): `DictionaryEncoder::encode` assigns dictionary
indices in first-seen order `0..k-1` over the distinct strings of `V`
(the built dictionary is the spec's first-seen fold, and each emitted
index points at the entry holding its string), and for every NONEMPTY
`V` the decode of the encode with `num_values = |V|` returns exactly
`V`; for the empty vector, decode of the 4-byte encode raises
Truncated (see the counterexample). -/
theorem C3_dictionary_roundtrip :
    (∀ V : List (List Nat),
      (DictionaryEncoder.buildDict V []).1 = DictionaryEncoder.firstSeen V)
    ∧ (∀ V : List (List Nat),
        List.Forall₂
          (fun idx v => idx < (DictionaryEncoder.buildDict V []).1.length ∧
            (DictionaryEncoder.buildDict V []).1.getD idx [] = v)
          (DictionaryEncoder.buildDict V []).2 V)
    ∧ (∀ V : List (List Nat), V ≠ [] → (∀ s ∈ V, s.length < 2 ^ 32) →
        V.length < 2 ^ 31 →
        DictionaryEncoder.decode (DictionaryEncoder.encode V) V.length = .ok V) := by
  refine ⟨?_, DictionaryEncoder.buildDict_forall2 (d := []), ?_⟩
  · intro V
    exact DictionaryEncoder.buildDict_fst_eq_foldl V []
  · intro V hne hs hlen
    exact DictionaryEncoder.decode_encode V hne hs hlen

/-- C3 witness: a concrete dictionary round trip with repeats. -/
theorem C3_dictionary_roundtrip_witness :
    DictionaryEncoder.decode (DictionaryEncoder.encode [[65], [66], [65]]) 3
      = .ok [[65], [66], [65]] :=
  C3_dictionary_roundtrip.2.2 [[65], [66], [65]] (by decide) (by decide) (by decide)

/-- C3 counterexample: the empty vector does not round-trip — encode
emits the 4-byte `dict_size = 0` header and zero index bytes, and
decode then raises Truncated from the RLE index decoder. -/
theorem C3_dictionary_counterexample :
    DictionaryEncoder.encode [] = [0, 0, 0, 0]
    ∧ DictionaryEncoder.decode (DictionaryEncoder.encode []) 0 = .error .truncated := by
  exact ⟨by decide, by decide⟩

/-- C4: the bounded varint decoders fail with Truncated exactly when
the buffer ends before a byte with the continuation bit clear (within
the byte budget), fail with Overflow exactly when the first 5
(resp. 10) bytes all carry the continuation bit, and otherwise return
a value together with the number of bytes consumed (`i + 1` when the
first clear byte sits at index `i`).  Overflow takes precedence when
the buffer holds the full budget of continuation bytes. -/
theorem C4_varint_bounded :
    (∀ data : List Nat,
      (VarintCodec.decodeUInt32Safe data = .error .truncated ↔
        data.length < 5 ∧ ∀ b ∈ data, byteContinues b)
      ∧ (VarintCodec.decodeUInt32Safe data = .error .overflow ↔
        5 ≤ data.length ∧ ∀ b ∈ data.take 5, byteContinues b)
      ∧ (∀ (i : Nat) (hi : i < data.length), i < 5 →
          (∀ b ∈ data.take i, byteContinues b) →
          ¬ byteContinues (data.get ⟨i, hi⟩) →
          ∃ v, VarintCodec.decodeUInt32Safe data = .ok (v, i + 1)))
    ∧ (∀ data : List Nat,
      (VarintCodec.decodeInt64Safe data = .error .truncated ↔
        data.length < 10 ∧ ∀ b ∈ data, byteContinues b)
      ∧ (VarintCodec.decodeInt64Safe data = .error .overflow ↔
        10 ≤ data.length ∧ ∀ b ∈ data.take 10, byteContinues b)
      ∧ (∀ (i : Nat) (hi : i < data.length), i < 10 →
          (∀ b ∈ data.take i, byteContinues b) →
          ¬ byteContinues (data.get ⟨i, hi⟩) →
          ∃ v, VarintCodec.decodeInt64Safe data = .ok (v, i + 1))) := by
  constructor
  · intro data
    refine ⟨?_, ?_, ?_⟩
    · have h := decodeVarintAux_truncated_iff (by norm_num : 7 * (5 - 1) < 32)
        data 0 0 (by norm_num)
      simp only [Nat.mul_zero, Nat.sub_zero] at h
      exact h
    · have h := decodeVarintAux_overflow_iff (by norm_num : 7 * (5 - 1) < 32)
        data 0 0 (by norm_num)
      simp only [Nat.mul_zero, Nat.sub_zero] at h
      exact h
    · intro i hi hbudget htake hclear
      have h := decodeVarintAux_ok (by norm_num : 7 * (5 - 1) < 32)
        data i 0 0 hi (by norm_num) (by omega) htake hclear
      simp only [Nat.mul_zero, Nat.zero_add] at h
      exact h
  · intro data
    refine ⟨?_, ?_, ?_⟩
    · have h := decodeVarintAux_truncated_iff (by norm_num : 7 * (10 - 1) < 64)
        data 0 0 (by norm_num)
      simp only [Nat.mul_zero, Nat.sub_zero] at h
      rw [show VarintCodec.decodeInt64Safe data
            = (VarintCodec.decodeVarintAux 64 10 data 0 0 0).map
                (fun p => (zigzagDecode 64 p.1, p.2)) from rfl]
      rw [exceptMap_error_iff]
      exact h
    · have h := decodeVarintAux_overflow_iff (by norm_num : 7 * (10 - 1) < 64)
        data 0 0 (by norm_num)
      simp only [Nat.mul_zero, Nat.sub_zero] at h
      rw [show VarintCodec.decodeInt64Safe data
            = (VarintCodec.decodeVarintAux 64 10 data 0 0 0).map
                (fun p => (zigzagDecode 64 p.1, p.2)) from rfl]
      rw [exceptMap_error_iff]
      exact h
    · intro i hi hbudget htake hclear
      have h := decodeVarintAux_ok (by norm_num : 7 * (10 - 1) < 64)
        data i 0 0 hi (by norm_num) (by omega) htake hclear
      simp only [Nat.mul_zero, Nat.zero_add] at h
      obtain ⟨v, hv⟩ := h
      refine ⟨zigzagDecode 64 v, ?_⟩
      rw [show VarintCodec.decodeInt64Safe data
            = (VarintCodec.decodeVarintAux 64 10 data 0 0 0).map
                (fun p => (zigzagDecode 64 p.1, p.2)) from rfl]
      rw [hv]
      rfl

/-- C4 witness: the spec's concrete probes — `[0x80, 0x80]` is
Truncated, six `0xFF` bytes are Overflow, and a terminated varint
succeeds reporting its length. -/
theorem C4_varint_bounded_witness :
    VarintCodec.decodeUInt32Safe [0x80, 0x80] = .error .truncated
    ∧ VarintCodec.decodeUInt32Safe [0xFF, 0xFF, 0xFF, 0xFF, 0xFF, 0xFF]
        = .error .overflow
    ∧ ∃ v, VarintCodec.decodeUInt32Safe [0xAC, 0x02, 0x7F] = .ok (v, 2) :=
  ⟨((C4_varint_bounded.1 [0x80, 0x80]).1).mpr (by decide),
   ((C4_varint_bounded.1 [0xFF, 0xFF, 0xFF, 0xFF, 0xFF, 0xFF]).2.1).mpr (by decide),
   (C4_varint_bounded.1 [0xAC, 0x02, 0x7F]).2.2 1 (by decide) (by decide)
     (by decide) (by decide)⟩

/-- C5: varint round trips — for every `uint32` value, decode of encode
(with any trailing bytes in the buffer) returns the value and reports
`bytes_read` equal to the encoded length; likewise for `int32` and
`int64` values through the zigzag mapping. -/
theorem C5_varint_roundtrip :
    (∀ (v : Nat) (rest : List Nat), v < 2 ^ 32 →
      VarintCodec.decodeUInt32Safe (VarintCodec.encodeUInt32 v ++ rest)
        = .ok (v, (VarintCodec.encodeUInt32 v).length))
    ∧ (∀ (u : Nat) (rest : List Nat), u < 2 ^ 32 →
      VarintCodec.decodeInt32Safe (VarintCodec.encodeInt32 u ++ rest)
        = .ok (u, (VarintCodec.encodeInt32 u).length))
    ∧ (∀ (u : Nat) (rest : List Nat), u < 2 ^ 64 →
      VarintCodec.decodeInt64Safe (VarintCodec.encodeInt64 u ++ rest)
        = .ok (u, (VarintCodec.encodeInt64 u).length)) := by
  refine ⟨?_, ?_, ?_⟩
  · intro v rest hv
    exact decodeVarint_varintBytes (by norm_num) (by norm_num) v rest hv
  · intro u rest hu
    show (VarintCodec.decodeVarintAux 32 5 (varintBytes (zigzagEncode 32 u) ++ rest)
        0 0 0).map (fun p => (zigzagDecode 32 p.1, p.2))
      = .ok (u, (varintBytes (zigzagEncode 32 u)).length)
    rw [decodeVarint_varintBytes (by norm_num) (by norm_num) _ rest
      (zigzagEncode_lt 32 u)]
    simp only [Except.map]
    rw [zigzagDecode_zigzagEncode (by norm_num) hu]
  · intro u rest hu
    show (VarintCodec.decodeVarintAux 64 10 (varintBytes (zigzagEncode 64 u) ++ rest)
        0 0 0).map (fun p => (zigzagDecode 64 p.1, p.2))
      = .ok (u, (varintBytes (zigzagEncode 64 u)).length)
    rw [decodeVarint_varintBytes (by norm_num) (by norm_num) _ rest
      (zigzagEncode_lt 64 u)]
    simp only [Except.map]
    rw [zigzagDecode_zigzagEncode (by norm_num) hu]

/-- C5 witness: concrete round trips, including a "negative" int32 (the
pattern of `-5`). -/
theorem C5_varint_roundtrip_witness :
    VarintCodec.decodeUInt32Safe (VarintCodec.encodeUInt32 300 ++ [])
      = .ok (300, (VarintCodec.encodeUInt32 300).length)
    ∧ VarintCodec.decodeInt32Safe (VarintCodec.encodeInt32 4294967291 ++ [0x7F])
      = .ok (4294967291, (VarintCodec.encodeInt32 4294967291).length)
    ∧ VarintCodec.decodeInt64Safe (VarintCodec.encodeInt64 1000 ++ [])
      = .ok (1000, (VarintCodec.encodeInt64 1000).length) :=
  ⟨C5_varint_roundtrip.1 300 [] (by decide),
   C5_varint_roundtrip.2.1 4294967291 [0x7F] (by decide),
   C5_varint_roundtrip.2.2 1000 [] (by decide)⟩

/-- C6 (spec-modelled): for a page carrying both min and max (a
nonempty interval), `canSkipPage` returns true iff no value in
`[min, max]` could satisfy the predicate, per the listed per-operator
conditions; it returns false whenever min or max is absent; and
pushdown is sound — if a page is skippable then no value bounded by its
stats satisfies the predicate. -/
theorem C6_predicate_skip :
    (∀ (p : Predicate) (mn mx : Int) (nc dce : Nat), mn ≤ mx →
      (p.canSkipPage ⟨some mn, some mx, nc, dce⟩ = true ↔
        ∀ v : Int, mn ≤ v → v ≤ mx → p.evaluate v = false))
    ∧ (∀ (p : Predicate) (stats : PageStats),
        stats.min_int = none ∨ stats.max_int = none →
        p.canSkipPage stats = false)
    ∧ (∀ (p : Predicate) (stats : PageStats) (mn mx : Int) (V : List Int),
        stats.min_int = some mn → stats.max_int = some mx →
        p.canSkipPage stats = true → (∀ v ∈ V, mn ≤ v ∧ v ≤ mx) →
        ∀ v ∈ V, p.evaluate v = false) := by
  refine ⟨fun p mn mx nc dce hle => canSkipPage_iff p mn mx nc dce hle,
    canSkipPage_none, ?_⟩
  intro p stats mn mx V h1 h2 hskip hV v hv
  have hb := hV v hv
  have hle : mn ≤ mx := le_trans hb.1 hb.2
  obtain ⟨mi, ma, nc, dce⟩ := stats
  simp only at h1 h2
  subst h1
  subst h2
  exact (canSkipPage_iff p mn mx nc dce hle).mp hskip v hb.1 hb.2

/-- C6 witness: the concrete skip checks from
tests/test_execution.cpp, via the characterization. -/
theorem C6_predicate_skip_witness :
    (Predicate.canSkipPage ⟨"value", .GT, 250⟩ ⟨some 100, some 200, 0, 0⟩ = true ↔
      ∀ v : Int, 100 ≤ v → v ≤ 200 →
        Predicate.evaluate ⟨"value", .GT, 250⟩ v = false)
    ∧ Predicate.canSkipPage ⟨"value", .GT, 250⟩ ⟨none, some 200, 0, 0⟩ = false :=
  ⟨C6_predicate_skip.1 ⟨"value", .GT, 250⟩ 100 200 0 0 (by decide),
   C6_predicate_skip.2.1 ⟨"value", .GT, 250⟩ ⟨none, some 200, 0, 0⟩ (Or.inl rfl)⟩

/-- C7 (amended): the RLE decoders raise no error on a run with
`run_length == 0`; the run simply contributes zero values.  In
particular a buffer holding exactly one zero-length run decodes to the
empty list, and more generally every buffer whose header and runs
parse decodes to the replication of its runs, zero lengths included. -/
theorem C7_zero_run :
    (∀ (v n : Nat),
      RLEEncoder.decodeInt32 (1 :: 0 :: VarintCodec.encodeInt32 v) n = .ok [])
    ∧ (∀ (v n : Nat),
      RLEEncoder.decodeInt64 (1 :: 0 :: VarintCodec.encodeInt64 v) n = .ok [])
    ∧ (∀ (data : List Nat) (n nr b : Nat) (runs : List (Nat × Nat)),
        VarintCodec.decodeUInt32Safe data = .ok (nr, b) →
        RLEEncoder.rleParseRuns 32 5 nr (data.drop b) = .ok runs →
        RLEEncoder.decodeInt32 data n = .ok (RLEEncoder.expandRuns runs))
    ∧ (∀ (data : List Nat) (n nr b : Nat) (runs : List (Nat × Nat)),
        VarintCodec.decodeUInt32Safe data = .ok (nr, b) →
        RLEEncoder.rleParseRuns 64 10 nr (data.drop b) = .ok runs →
        RLEEncoder.decodeInt64 data n = .ok (RLEEncoder.expandRuns runs)) := by
  refine ⟨?_, ?_, ?_, ?_⟩
  · intro v n
    exact RLEEncoder.decodeRLE_zero_run (by norm_num) (by norm_num) v n
  · intro v n
    exact RLEEncoder.decodeRLE_zero_run (by norm_num) (by norm_num) v n
  · intro data n nr b runs h1 h2
    show RLEEncoder.decodeRLE 32 5 data n = .ok (RLEEncoder.expandRuns runs)
    unfold RLEEncoder.decodeRLE
    rw [show VarintCodec.decodeVarintAux 32 5 data 0 0 0 = .ok (nr, b) from h1]
    dsimp only
    rw [RLEEncoder.rleDecodeLoop_eq_parse, h2]
    simp [Except.map]
  · intro data n nr b runs h1 h2
    show RLEEncoder.decodeRLE 64 10 data n = .ok (RLEEncoder.expandRuns runs)
    unfold RLEEncoder.decodeRLE
    rw [show VarintCodec.decodeVarintAux 32 5 data 0 0 0 = .ok (nr, b) from h1]
    dsimp only
    rw [RLEEncoder.rleDecodeLoop_eq_parse, h2]
    simp [Except.map]

/-- C7 witness: the concrete one-zero-run buffer succeeds without any
error. -/
theorem C7_zero_run_witness :
    RLEEncoder.decodeInt32 (1 :: 0 :: VarintCodec.encodeInt32 5) 0 = .ok [] :=
  C7_zero_run.1 5 0

/-- C7 counterexample: `[num_runs = 1, run_length = 0, value = 5]`
decodes successfully to the empty list — the decoders raise no
InvalidRun (or any other) error on `run_length == 0`, contrary to the
claim. -/
theorem C7_zero_run_counterexample :
    RLEEncoder.decodeInt32 [1, 0, 10] 1 = .ok []
    ∧ RLEEncoder.decodeInt64 [1, 0, 10] 1 = .ok [] := by
  exact ⟨by decide, by decide⟩

/-- C8: evaluation of the decoders at the claim's failing inputs.  On
buffers that end before the fixed-width fields, the delta and
dictionary decoders perform an unchecked `memcpy` past the end of the
buffer (undefined behaviour, modelled as `outOfBoundsRead`) instead of
raising the Truncated error the spec requires. -/
theorem C8_unchecked_reads :
    DeltaEncoder.decodeInt32 [0] 1 = .error .outOfBoundsRead
    ∧ DeltaEncoder.decodeInt64 [0, 0, 0, 0] 1 = .error .outOfBoundsRead
    ∧ DictionaryEncoder.decode [] 0 = .error .outOfBoundsRead
    ∧ DictionaryEncoder.decode [1, 0, 0, 0, 5, 0, 0, 0, 65] 1
        = .error .outOfBoundsRead
    ∧ DecodeError.outOfBoundsRead ≠ DecodeError.truncated := by
  decide

/-- C9: `DictionaryEncoder::decode` raises InvalidDictIndex exactly
when some decoded index lies outside `[0, dict_size)` (equivalently, at
least `dict_size`, reading the `int32` pattern through the signed
comparison of the source), and when no index is out of range every
output string is the dictionary entry at its index; `decode` factors
through this mapping once the dictionary and the indices parse. -/
theorem C9_dict_index_validation :
    (∀ (dict : List (List Nat)) (idxs : List Nat),
      dict.length < 2 ^ 31 → (∀ i ∈ idxs, i < 2 ^ 32) →
      (DictionaryEncoder.mapIndices dict idxs = .error .invalidDictIndex ↔
        ∃ i ∈ idxs, dict.length ≤ i))
    ∧ (∀ (dict : List (List Nat)) (idxs : List Nat),
      dict.length < 2 ^ 31 → (∀ i ∈ idxs, i < dict.length) →
      DictionaryEncoder.mapIndices dict idxs
        = .ok (idxs.map (fun i => dict.getD i [])))
    ∧ (∀ (data : List Nat) (n dict_size : Nat)
        (r : List (List Nat) × List Nat) (idxs : List Nat),
        readLEValue 4 data = .ok dict_size →
        DictionaryEncoder.readDictEntries dict_size (data.drop 4) = .ok r →
        RLEEncoder.decodeInt32 r.2 n = .ok idxs →
        DictionaryEncoder.decode data n = DictionaryEncoder.mapIndices r.1 idxs) :=
  ⟨fun dict idxs h1 h2 => DictionaryEncoder.mapIndices_invalid_iff idxs dict h1 h2,
   fun dict idxs h1 h2 => DictionaryEncoder.mapIndices_ok idxs dict h1 h2,
   DictionaryEncoder.decode_decompose⟩

/-- C9 witness: an index equal to `dict_size` is rejected, in-range
indices are looked up. -/
theorem C9_dict_index_validation_witness :
    DictionaryEncoder.mapIndices [[65]] [1] = .error .invalidDictIndex
    ∧ DictionaryEncoder.mapIndices [[65]] [0, 0]
        = .ok ([0, 0].map (fun i => [[65]].getD i [])) :=
  ⟨(C9_dict_index_validation.1 [[65]] [1] (by decide) (by decide)).mpr
      ⟨1, by decide, by decide⟩,
   C9_dict_index_validation.2.1 [[65]] [0, 0] (by decide) (by decide)⟩

/-- C10: the result of the RLE decoders is completely independent of
the `num_values` argument; on success the number of decoded values is
the sum of the parsed run lengths; and bytes remaining after the last
run are silently ignored (appending anything to a successfully decoded
buffer leaves the result unchanged), so no error relates the count to
`num_values`. -/
theorem C10_rle_hint_independent :
    (∀ (data : List Nat) (n m : Nat),
      RLEEncoder.decodeInt32 data n = RLEEncoder.decodeInt32 data m
      ∧ RLEEncoder.decodeInt64 data n = RLEEncoder.decodeInt64 data m)
    ∧ (∀ (data res : List Nat) (n : Nat),
        RLEEncoder.decodeInt32 data n = .ok res →
        ∃ nr b runs, VarintCodec.decodeUInt32Safe data = .ok (nr, b)
          ∧ RLEEncoder.rleParseRuns 32 5 nr (data.drop b) = .ok runs
          ∧ res.length = (runs.map Prod.fst).sum)
    ∧ (∀ (data res : List Nat) (n : Nat),
        RLEEncoder.decodeInt64 data n = .ok res →
        ∃ nr b runs, VarintCodec.decodeUInt32Safe data = .ok (nr, b)
          ∧ RLEEncoder.rleParseRuns 64 10 nr (data.drop b) = .ok runs
          ∧ res.length = (runs.map Prod.fst).sum)
    ∧ (∀ (data extra res : List Nat) (n : Nat),
        RLEEncoder.decodeInt32 data n = .ok res →
        RLEEncoder.decodeInt32 (data ++ extra) n = .ok res)
    ∧ (∀ (data extra res : List Nat) (n : Nat),
        RLEEncoder.decodeInt64 data n = .ok res →
        RLEEncoder.decodeInt64 (data ++ extra) n = .ok res) := by
  refine ⟨fun data n m => ⟨rfl, rfl⟩, ?_, ?_, ?_, ?_⟩
  · intro data res n h
    obtain ⟨nr, b, runs, h1, h2, h3⟩ := RLEEncoder.decodeRLE_ok_structure data n res h
    exact ⟨nr, b, runs, h1, h2, by rw [h3, RLEEncoder.expandRuns_length]⟩
  · intro data res n h
    obtain ⟨nr, b, runs, h1, h2, h3⟩ := RLEEncoder.decodeRLE_ok_structure data n res h
    exact ⟨nr, b, runs, h1, h2, by rw [h3, RLEEncoder.expandRuns_length]⟩
  · intro data extra res n h
    exact RLEEncoder.decodeRLE_append data extra n res h
  · intro data extra res n h
    exact RLEEncoder.decodeRLE_append data extra n res h

/-- C10 witness: a two-value run buffer, decoded with different hints
and with trailing junk. -/
theorem C10_rle_hint_independent_witness :
    RLEEncoder.decodeInt32 [1, 2, 10] 0 = RLEEncoder.decodeInt32 [1, 2, 10] 99
    ∧ (∃ nr b runs, VarintCodec.decodeUInt32Safe [1, 2, 10] = .ok (nr, b)
        ∧ RLEEncoder.rleParseRuns 32 5 nr ([1, 2, 10].drop b) = .ok runs
        ∧ ([5, 5] : List Nat).length = (runs.map Prod.fst).sum)
    ∧ RLEEncoder.decodeInt32 ([1, 2, 10] ++ [0xAB]) 0 = .ok [5, 5] :=
  ⟨(C10_rle_hint_independent.1 [1, 2, 10] 0 99).1,
   C10_rle_hint_independent.2.1 [1, 2, 10] [5, 5] 0 (by decide),
   C10_rle_hint_independent.2.2.2.1 [1, 2, 10] [0xAB] [5, 5] 0 (by decide)⟩

end Columnar
